import Mathlib

/-!
Shallow embedding of `local-ci`'s test manager (`src/test.rs`).

The embedding translates the data model and operations of `Manager`,
`TestJob`, `JobCounter`, `TestCase` and the notification stream into pure
Lean definitions.  External collaborators that are not part of the sources
under verification (the worktree interface's `commit_tree`, the result
database's `cached_result`, the resource pools) are passed in as function
parameters / oracles, mirroring how the manager treats them as opaque.

Concurrency is modelled as a small-step scheduler over a manager state:
each spawned supervisor task is a `JobTask` whose lifecycle is driven by
scheduler `Step`s, with the nondeterministic outcomes of its races (the
biased select between cancellation and resource acquisition, the race
between child completion and cancellation, the shutdown-grace race)
supplied as explicit `RunFate` data.  The broadcast stream and the result
database writes are recorded as an append-only `trace` of `Event`s, in
emission order.
-/

/-- Commit hash: opaque string identifying a revision (`git::CommitHash`). -/
abbrev CommitHash := String

/-- Content hash (`git::Hash`): either a commit hash or a tree hash. -/
abbrev Hash := String

/-- Tree hash: opaque string identifying a source tree snapshot. -/
abbrev TreeHash := String

/-- `ConfigHash` from `test.rs`: integer digest of the test configuration. -/
abbrev ConfigHash := Nat

/-- `TestName` from `test.rs` (newtype over `String`). -/
abbrev TestName := String

/-- `ExitCode` from `test.rs` (`i32`; exact width is irrelevant here). -/
abbrev ExitCode := Int

/-- `CachePolicy` from `test.rs`. -/
inductive CachePolicy
  | noCaching
  | byCommit
  | byTree
deriving DecidableEq, Repr

/-- `ResourceKey` from `resource.rs` as referenced by `test.rs`:
either the worktree pool or a named user-token pool. -/
inductive ResourceKey
  | worktree
  | userToken (name : String)
deriving DecidableEq, Repr

/-- `Test` from `test.rs`: immutable test definition. `shutdownGracePeriod`
is in abstract time units (a `Duration` in the source). -/
structure Test where
  name : TestName
  configHash : ConfigHash
  program : String
  args : List String
  needsResources : List (ResourceKey × Nat)
  shutdownGracePeriod : Nat
  cachePolicy : CachePolicy
deriving DecidableEq, Repr

/-- Whether the resource request of a test includes the worktree key;
`spawn_job` checks `resources.resources(&ResourceKey::Worktree)` to decide
between `checkout_and_run` (owned worktree) and `run` on the origin path. -/
def Test.needsWorktree (t : Test) : Bool :=
  t.needsResources.any (fun p => p.1 = ResourceKey.worktree)

/-- `TestResult` from `test.rs`. -/
structure TestResult where
  exit_code : ExitCode
deriving DecidableEq, Repr

/-- `TestStatus` from `test.rs`. -/
inductive TestStatus
  | enqueued
  | started
  | canceled
  | error (msg : String)
  | completed (result : TestResult)
deriving DecidableEq, Repr

/-- Terminal statuses: `Canceled`, `Error`, `Completed`. -/
def TestStatus.isTerminal : TestStatus → Bool
  | .canceled => true
  | .error _ => true
  | .completed _ => true
  | _ => false

/-- `TestCase` from `test.rs`. -/
structure TestCase where
  commit_hash : CommitHash
  cache_hash : Option Hash
  test : Test
deriving DecidableEq, Repr

/-- `TestCaseId` from `test.rs`: `format!("{}:{}", commit_hash, test_name)`. -/
abbrev TestCaseId := String

/-- `TestCaseId::new`. -/
def TestCase.caseId (tc : TestCase) : TestCaseId :=
  tc.commit_hash ++ ":" ++ tc.test.name

/-- The worktree interface's `commit_tree` (external collaborator): resolve
the tree hash of a commit, fallibly. -/
abbrev CommitTreeFn := CommitHash → Except String TreeHash

/-- `TestCase::new` from `test.rs`: derive the optional cache hash from the
test's cache policy (`ByTree` consults the worktree interface). -/
def TestCase.new (repo : CommitTreeFn) (commit_hash : CommitHash) (test : Test) :
    Except String TestCase := do
  let cache_hash ← match test.cachePolicy with
    | .noCaching => pure (none : Option Hash)
    | .byCommit => pure (some commit_hash)
    | .byTree => do
        let tree ← repo commit_hash
        pure (some tree)
  pure { commit_hash := commit_hash, cache_hash := cache_hash, test := test }

/-- `TestCase::storage_hash`: the hash under which results (and output
sinks) are stored: the cache hash when present, otherwise the commit hash. -/
def TestCase.storage_hash (tc : TestCase) : Hash :=
  tc.cache_hash.getD tc.commit_hash

/-!
## Supervisor job model (`TestJob::run` / `TestJob::checkout_and_run`)

The actions the supervisor performs on the outside world, in order.  The
outcome of each race inside `run` is supplied as a `RunFate`.
-/

/-- Observable actions of a supervisor job. `awaitChildGrace` is the
child-versus-shutdown-grace-period race after SIGINT; `awaitChild` is an
unbounded wait on the child (used only by the specification-side
description of cancellation, see `c5SpecCancelActions`). -/
inductive JobAction
  | checkout (commit : CommitHash)
  | spawnChild
  | sigint
  | awaitChildGrace
  | sigkill
  | awaitChild
deriving DecidableEq, Repr

/-- How the child process ended when its completion won the race. -/
inductive ChildOutcome
  | exited (code : ExitCode)
  | killedBySignal (signal : Nat)
deriving DecidableEq, Repr

/-- Outcomes of the cancellation path inside `TestJob::run`: whether the
`kill(pid, SIGINT)` call fails, whether the child terminates within the
shutdown grace period, and whether the `kill(pid, SIGKILL)` call fails. -/
structure CancelFate where
  sigintFails : Bool
  childEndsWithinGrace : Bool
  sigkillFails : Bool
deriving DecidableEq, Repr

/-- Nondeterministic outcome of `TestJob::run` once the job has its
resources: the child spawn can fail; otherwise the child-completion future
races the cancellation future. -/
inductive RunFate
  | spawnFails (msg : String)
  | childDone (outcome : ChildOutcome)
  | canceled (fate : CancelFate)
deriving DecidableEq, Repr

/-- `TestJob::run` from `test.rs`, as a function of the race outcomes.
Returns the performed actions and the result:
`Except`-error = the `anyhow::Result` error path (becomes `Error` status),
`.ok none` = cancelled, `.ok (some code)` = clean exit with `code`. -/
def TestJob.run (fate : RunFate) : List JobAction × Except String (Option ExitCode) :=
  match fate with
  | .spawnFails msg => ([], .error msg)
  | .childDone (.exited code) => ([.spawnChild], .ok (some code))
  | .childDone (.killedBySignal sig) =>
      ([.spawnChild], .error ("terminated by signal " ++ toString sig))
  | .canceled cf =>
      if cf.sigintFails then
        ([.spawnChild, .sigint], .error "couldn't interrupt child job")
      else if cf.childEndsWithinGrace then
        ([.spawnChild, .sigint, .awaitChildGrace], .ok none)
      else if cf.sigkillFails then
        ([.spawnChild, .sigint, .awaitChildGrace, .sigkill],
          .error "couldn't interrupt child job")
      else
        ([.spawnChild, .sigint, .awaitChildGrace, .sigkill], .ok none)

/-- `TestJob::checkout_and_run`: check out the commit into the owned
worktree (which can fail), then `run`. -/
def TestJob.checkoutAndRun (tc : TestCase) (checkoutFails : Option String)
    (fate : RunFate) : List JobAction × Except String (Option ExitCode) :=
  match checkoutFails with
  | some msg => ([.checkout tc.commit_hash], .error msg)
  | none =>
      let (acts, r) := TestJob.run fate
      (.checkout tc.commit_hash :: acts, r)

/-- The body of the resource-acquired arm of the biased select in
`Manager::spawn_job`: run the job (via `checkout_and_run` when it owns a
worktree, else directly in the origin path), then map the result to a
terminal status; `set_result` is recorded on the database exactly for a
clean exit.  Returns (actions, terminal status, result written via
`set_result` if any). -/
def superviseAcquired (tc : TestCase) (checkoutFails : Option String)
    (fate : RunFate) : List JobAction × TestStatus × Option TestResult :=
  let (acts, result) :=
    if tc.test.needsWorktree then TestJob.checkoutAndRun tc checkoutFails fate
    else TestJob.run fate
  match result with
  | .error msg => (acts, .error msg, none)
  | .ok none => (acts, .canceled, none)
  | .ok (some code) =>
      (acts, .completed { exit_code := code }, some { exit_code := code })

/-!
## The global manager model

`Manager` state (`test.rs`): the in-flight cancellation map `job_cts`, the
job counter, the broadcast sender, the test list, and its collaborators.
Each spawned supervisor task is a `JobTask` identified by a fresh `jobId`
(standing for the identity of its `CancellationToken` / `JobToken`).

Events record, in emission order, everything the manager sends on the
broadcast channel and writes to the result database.  The `jobId` source
tag on notifications (and the `act` events) is bookkeeping added by the
model so that theorems can speak about a single spawned job; it does not
influence any behaviour.
-/

/-- Events recorded by the model, in emission order. -/
inductive Event
  | notif (source : Option Nat) (tc : TestCase) (status : TestStatus)
  | createOutput (jobId : Nat) (hash : Hash) (name : TestName) (cfg : ConfigHash)
  | setResult (jobId : Nat) (r : TestResult)
  | act (jobId : Nat) (a : JobAction)
deriving DecidableEq, Repr

/-- Phase of a spawned supervisor task: blocked in the biased select on
resource acquisition, or past it (Started emitted, job running). -/
inductive Phase
  | waiting
  | running
deriving DecidableEq, Repr

/-- A live supervisor task. -/
structure JobTask where
  jobId : Nat
  tc : TestCase
  phase : Phase
deriving DecidableEq, Repr

/-- The manager state. `counter` is the `JobCounter` value; `jobCts` is the
`job_cts` map (as an association list with distinct keys); `canceledTokens`
is the set of job ids whose cancellation token has been cancelled
(cancellation is level-triggered: ids are never removed). -/
structure MState where
  tests : List Test
  nextJobId : Nat
  jobCts : List (TestCaseId × Nat)
  canceledTokens : List Nat
  tasks : List JobTask
  counter : Nat
  trace : List Event
deriving DecidableEq, Repr

/-- The manager right after `ManagerBuilder::build`. -/
def MState.init (tests : List Test) : MState :=
  { tests := tests, nextJobId := 0, jobCts := [], canceledTokens := [],
    tasks := [], counter := 0, trace := [] }

/-- The result database's `cached_result` (external collaborator).  Read
errors are treated as cache misses by `Manager::cache_lookup`, so they are
already folded into the `Option`. -/
abbrev CacheFn := Hash → TestName → ConfigHash → Option TestResult

/-- `Manager::cache_lookup`: no cache hash (cache policy `none`) never
hits; otherwise consult the database. -/
def Manager.cacheLookup (cache : CacheFn) (tc : TestCase) : Option TestResult :=
  match tc.cache_hash with
  | some h => cache h tc.test.name tc.test.configHash
  | none => none

/-- One iteration of the `to_start` loop body in `Manager::set_revisions`:
on a cache hit, emit only `Completed(result)`; on a miss, create the output
entry in the result database (keyed by `storage_hash`), insert a fresh
cancellation token into `job_cts`, take a job-counter token, and
`spawn_job` (which emits `Enqueued` and starts the supervisor task). -/
def startOne (cache : CacheFn) (s : MState) (tc : TestCase) : MState :=
  match Manager.cacheLookup cache tc with
  | some r => { s with trace := s.trace ++ [.notif none tc (.completed r)] }
  | none =>
      { s with
        nextJobId := s.nextJobId + 1
        jobCts := s.jobCts ++ [(tc.caseId, s.nextJobId)]
        counter := s.counter + 1
        tasks := s.tasks ++ [{ jobId := s.nextJobId, tc := tc, phase := .waiting }]
        trace := s.trace ++
          [.createOutput s.nextJobId tc.storage_hash tc.test.name tc.test.configHash,
           .notif (some s.nextJobId) tc .enqueued] }

/-- The `to_start` loop of `Manager::set_revisions`. -/
def startList (cache : CacheFn) (s : MState) : List TestCase → MState
  | [] => s
  | tc :: rest => startList cache (startOne cache s tc) rest

/-- Build the desired test cases: `revs × tests` (`cartesian_product`),
each constructed with `TestCase::new`. -/
def buildTestCases (repo : CommitTreeFn) (tests : List Test)
    (revs : List CommitHash) : Except String (List TestCase) :=
  (revs.flatMap (fun r => tests.map (fun t => (r, t)))).mapM
    (fun p => TestCase.new repo p.1 p.2)

/-- Collecting the built test cases into a `HashMap` keyed by id keeps the
last occurrence of each key. -/
def dedupKeepLast : List (TestCaseId × TestCase) → List (TestCaseId × TestCase)
  | [] => []
  | p :: rest =>
      if rest.any (fun q => q.1 = p.1) then dedupKeepLast rest
      else p :: dedupKeepLast rest

/-- The desired map of `Manager::set_revisions`: the built test cases,
keyed by identity, deduplicated as a `HashMap` collect would. -/
def desiredCases (tcs : List TestCase) : List (TestCaseId × TestCase) :=
  dedupKeepLast (tcs.map (fun tc => (tc.caseId, tc)))

/-- The `to_cancel` loop of `Manager::set_revisions`: for each in-flight
identity not desired, cancel its token and remove it from `job_cts`. -/
def cancelPhase (s : MState) (testCases : List (TestCaseId × TestCase)) : MState :=
  { s with
    canceledTokens := s.canceledTokens ++
      ((s.jobCts.filter (fun p => ¬ testCases.any (fun q => q.1 = p.1))).map
        (fun p => p.2)),
    jobCts := s.jobCts.filter (fun p => testCases.any (fun q => q.1 = p.1)) }

/-- `to_start` of `Manager::set_revisions`: the desired identities not
already in `job_cts` (checked against the map before removal, as in the
source, where both sets are computed up front). -/
def toStartOf (s : MState) (testCases : List (TestCaseId × TestCase)) :
    List (TestCaseId × TestCase) :=
  testCases.filter (fun p => ¬ s.jobCts.any (fun q => q.1 = p.1))

/-- The mutating part of `Manager::set_revisions`, after the test cases
have been built successfully. -/
def applySetRevs (cache : CacheFn) (s : MState) (tcs : List TestCase) : MState :=
  startList cache (cancelPhase s (desiredCases tcs))
    ((toStartOf s (desiredCases tcs)).map (fun p => p.2))

/-- `Manager::set_revisions`: build the desired test cases (failure aborts
before any mutation), cancel undesired in-flight work, start desired new
work. -/
def MState.setRevisions (cache : CacheFn) (repo : CommitTreeFn)
    (revs : List CommitHash) (s : MState) : Except String MState := do
  let tcs ← buildTestCases repo s.tests revs
  pure (applySetRevs cache s tcs)

/-- Scheduler steps.  `setRevs` is a caller invocation of `set_revisions`;
the other three steps schedule one live supervisor task:
`cancelWaiting`: the biased select observes cancellation first — the task
exits silently (its arm body is `()`);
`acquire`: resource acquisition completes with the token not cancelled —
the task emits `Started` (the biased select polls cancellation first, so
this step requires the token uncancelled);
`finish`: a running task's race outcomes resolve as `fate` — it performs
the supervisor algorithm, records `set_result` on a clean exit, and emits
its terminal notification. -/
inductive Step
  | setRevs (revs : List CommitHash)
  | cancelWaiting (j : Nat)
  | acquire (j : Nat)
  | finish (j : Nat) (checkoutFails : Option String) (fate : RunFate)
deriving DecidableEq, Repr

def Step.isSetRevs : Step → Bool
  | .setRevs _ => true
  | _ => false

/-- The `set_result` database write performed by `spawn_job` when the run
yields a clean exit code (none otherwise), as recorded events. -/
def setResEvents (j : Nat) : Option TestResult → List Event
  | some r => [.setResult j r]
  | none => []

/-- The live tasks of job id `j` (at most one, by the state invariant). -/
def MState.tasksOf (s : MState) (j : Nat) : List JobTask :=
  s.tasks.filter (fun t => t.jobId = j)

/-- Apply one scheduler step, if enabled. -/
def applyStep (cache : CacheFn) (repo : CommitTreeFn) (s : MState) :
    Step → Option MState
  | .setRevs revs => (s.setRevisions cache repo revs).toOption
  | .cancelWaiting j =>
      match s.tasksOf j with
      | [t] =>
          if t.phase = .waiting ∧ j ∈ s.canceledTokens then
            some { s with
              tasks := s.tasks.filter (fun t' => ¬ t'.jobId = j),
              counter := s.counter - 1 }
          else none
      | _ => none
  | .acquire j =>
      match s.tasksOf j with
      | [t] =>
          if t.phase = .waiting ∧ j ∉ s.canceledTokens then
            some { s with
              tasks := s.tasks.map
                (fun t' => if t'.jobId = j then { t' with phase := .running } else t'),
              trace := s.trace ++ [.notif (some j) t.tc .started] }
          else none
      | _ => none
  | .finish j cof fate =>
      match s.tasksOf j with
      | [t] =>
          if t.phase = .running then
            let out := superviseAcquired t.tc cof fate
            some { s with
              tasks := s.tasks.filter (fun t' => ¬ t'.jobId = j),
              counter := s.counter - 1,
              trace := s.trace ++ out.1.map (.act j) ++
                setResEvents j out.2.2 ++
                [.notif (some j) t.tc out.2.1] }
          else none
      | _ => none

/-- Run a list of scheduler steps. -/
def runSteps (cache : CacheFn) (repo : CommitTreeFn) :
    MState → List Step → Option MState
  | s, [] => some s
  | s, st :: rest =>
      match applyStep cache repo s st with
      | some s' => runSteps cache repo s' rest
      | none => none

/-!
## Trace projections
-/

/-- The notification statuses emitted by spawned job `j`, in order. -/
def jobStatuses (tr : List Event) (j : Nat) : List TestStatus :=
  tr.filterMap (fun e =>
    match e with
    | .notif (some j') _ st => if j' = j then some st else none
    | _ => none)

/-- The actions performed by spawned job `j`, in order. -/
def actsOf (tr : List Event) (j : Nat) : List JobAction :=
  tr.filterMap (fun e =>
    match e with
    | .act j' a => if j' = j then some a else none
    | _ => none)

/-- The results recorded via `set_result` by spawned job `j`, in order. -/
def setResultsOf (tr : List Event) (j : Nat) : List TestResult :=
  tr.filterMap (fun e =>
    match e with
    | .setResult j' r => if j' = j then some r else none
    | _ => none)

/-- All notification statuses for the test-case identity `id`, in the
order any subscriber observes them (cache-hit notifications included). -/
def tcStatuses (tr : List Event) (id : TestCaseId) : List TestStatus :=
  tr.filterMap (fun e =>
    match e with
    | .notif _ tc st => if tc.caseId = id then some st else none
    | _ => none)

/-- Count of terminal notifications in a status list. -/
def countTerminal (l : List TestStatus) : Nat :=
  (l.filter (fun st => st.isTerminal)).length

/-!
## The state invariant
-/

/-- Per-job correspondence between the live task (if any) of job id `j`
and the notifications job `j` has emitted so far: a waiting task has
emitted exactly `Enqueued`; a running task exactly `Enqueued, Started`;
a job with no live task either was never spawned, or was cancelled while
waiting (only `Enqueued`), or finished with one terminal notification. -/
def jobView (s : MState) (j : Nat) : Prop :=
  (s.tasksOf j = [] ∧
    (jobStatuses s.trace j = [] ∨ jobStatuses s.trace j = [.enqueued] ∨
      ∃ st, st.isTerminal = true ∧
        jobStatuses s.trace j = [.enqueued, .started, st]))
  ∨ (∃ tc, s.tasksOf j = [{ jobId := j, tc := tc, phase := .waiting }] ∧
      jobStatuses s.trace j = [.enqueued])
  ∨ (∃ tc, s.tasksOf j = [{ jobId := j, tc := tc, phase := .running }] ∧
      jobStatuses s.trace j = [.enqueued, .started])

/-- The reachable-state invariant of the manager model. -/
structure MInv (s : MState) : Prop where
  counter_eq : s.counter = s.tasks.length
  tasks_lt : ∀ t ∈ s.tasks, t.jobId < s.nextJobId
  canceled_lt : ∀ j ∈ s.canceledTokens, j < s.nextJobId
  cts_lt : ∀ p ∈ s.jobCts, p.2 < s.nextJobId
  jobs : ∀ j, jobView s j
  acts_started : ∀ j, actsOf s.trace j ≠ [] →
    TestStatus.started ∈ jobStatuses s.trace j
  set_results : ∀ j, setResultsOf s.trace j =
    (jobStatuses s.trace j).filterMap (fun st => match st with
      | .completed r => some r
      | _ => none)
  fresh : ∀ j, s.nextJobId ≤ j →
    jobStatuses s.trace j = [] ∧ actsOf s.trace j = [] ∧
      setResultsOf s.trace j = []

/-!
## Closed form of the `to_start` loop
-/

/-- The events emitted by the `to_start` loop, starting from fresh job id
`n`: a cache hit emits only `Completed`; a miss creates the database output
entry and emits `Enqueued`. -/
def startEvents (cache : CacheFn) (n : Nat) : List TestCase → List Event
  | [] => []
  | tc :: rest =>
      match Manager.cacheLookup cache tc with
      | some r => .notif none tc (.completed r) :: startEvents cache n rest
      | none =>
          .createOutput n tc.storage_hash tc.test.name tc.test.configHash ::
            .notif (some n) tc .enqueued :: startEvents cache (n + 1) rest

/-- The `job_cts` entries inserted by the `to_start` loop. -/
def startCts (cache : CacheFn) (n : Nat) : List TestCase → List (TestCaseId × Nat)
  | [] => []
  | tc :: rest =>
      match Manager.cacheLookup cache tc with
      | some _ => startCts cache n rest
      | none => (tc.caseId, n) :: startCts cache (n + 1) rest

/-- The supervisor tasks spawned by the `to_start` loop. -/
def startTasks (cache : CacheFn) (n : Nat) : List TestCase → List JobTask
  | [] => []
  | tc :: rest =>
      match Manager.cacheLookup cache tc with
      | some _ => startTasks cache n rest
      | none =>
          { jobId := n, tc := tc, phase := .waiting } :: startTasks cache (n + 1) rest

/-!
## Concrete fixtures for witnesses and counterexamples
-/

/-- A fixture test in the style of `TestScript::as_test` with `ByCommit`
caching and a worktree requirement. -/
def fixtureTestByCommit : Test :=
  { name := "test_0", configHash := 0, program := "bash",
    args := ["-xc", "script"], needsResources := [(.worktree, 1)],
    shutdownGracePeriod := 5, cachePolicy := .byCommit }

/-- A fixture test with caching disabled and no worktree requirement. -/
def fixtureTestNoCache : Test :=
  { name := "test_0", configHash := 0, program := "bash",
    args := ["-xc", "script"], needsResources := [],
    shutdownGracePeriod := 5, cachePolicy := .noCaching }

/-- The fixture test under the `ByTree` cache policy. -/
def fixtureTestByTree : Test :=
  { fixtureTestByCommit with cachePolicy := .byTree }

/-- An empty result database: every lookup misses. -/
def emptyCache : CacheFn := fun _ _ _ => none

/-- A worktree interface whose `commit_tree` always succeeds. -/
def treeFn : CommitTreeFn := fun c => .ok ("tree:" ++ c)

/-- The test case built by `TestCase::new` on the C8 witness input. -/
def c8WitnessCase : TestCase :=
  (TestCase.new treeFn "c1" fixtureTestByTree).toOption.getD
    { commit_hash := "", cache_hash := none, test := fixtureTestByTree }

/-!
## C5 — cancellation of a running job
-/

/-- Specification-side description (written from the spec's words, §4.4
step 4, for comparison with the source translation): on cancellation
deliver SIGINT, await the child up to the shutdown grace period, and if
the grace expires deliver SIGKILL *and await the child again*. -/
def c5SpecCancelActions (graceExpired : Bool) : List JobAction :=
  if graceExpired then [.sigint, .awaitChildGrace, .sigkill, .awaitChild]
  else [.sigint, .awaitChildGrace]

/-- C5 as stated, instantiated to the cancellation branch of
`TestJob::run` with signal delivery succeeding: the supervisor's actions
after spawning the child follow the spec's sequence and the result is
Cancelled. -/
def c5StatedCheck (graceExpired : Bool) : Prop :=
  TestJob.run (.canceled (CancelFate.mk false (!graceExpired) false)) =
    (JobAction.spawnChild :: c5SpecCancelActions graceExpired, .ok none)

deriving instance DecidableEq for Except

/-!
## C1 — exactly one terminal notification per spawned job
-/

/-- C1 as stated, checked over the spawned jobs of a final state: every
job that was actually spawned (its id is below `nextJobId` and it emitted
notifications) has exactly one terminal notification. -/
def c1StatedCheck (s : MState) : Bool :=
  (List.range s.nextJobId).all (fun j =>
    if jobStatuses s.trace j = [] then true
    else decide (countTerminal (jobStatuses s.trace j) = 1))

/-- The final state of the C1 witness execution: one job runs to a clean
exit. -/
def c1WitnessState : MState :=
  (runSteps emptyCache treeFn (MState.init [fixtureTestByCommit])
    [.setRevs ["c1"], .acquire 0,
     .finish 0 none (.childDone (.exited 0))]).getD (MState.init [])

/-!
## C4 — per-test-case notification order
-/

/-- No notification follows a terminal one in a status sequence. -/
def noAfterTerminal : List TestStatus → Bool
  | [] => true
  | st :: rest => if st.isTerminal then rest.isEmpty else noAfterTerminal rest

/-- The first `p`-status (if any) occurs strictly before the first
`q`-status (if any). -/
def firstBefore (l : List TestStatus) (p q : TestStatus → Bool) : Bool :=
  match l.findIdx? p, l.findIdx? q with
  | some i, some k => decide (i < k)
  | _, _ => true

/-- C4 as stated, for one test case's observed status sequence:
`Enqueued` strictly before `Started`, `Started` strictly before the
terminal notification, and nothing after the terminal one. -/
def c4StatedListCheck (l : List TestStatus) : Bool :=
  firstBefore l (fun st => st = .enqueued) (fun st => st = .started) &&
  firstBefore l (fun st => st = .started) (fun st => st.isTerminal) &&
  noAfterTerminal l

/-- The test-case identities appearing in a notification trace. -/
def traceCaseIds (tr : List Event) : List TestCaseId :=
  tr.filterMap (fun e => match e with
    | .notif _ tc _ => some tc.caseId
    | _ => none)

/-- C4 as stated over a whole trace: every test case's notifications are
observed in state-machine order. -/
def c4StatedCheck (tr : List Event) : Bool :=
  (traceCaseIds tr).all (fun id => c4StatedListCheck (tcStatuses tr id))

/-- The final state of the C4 witness execution. -/
def c4WitnessState : MState :=
  (runSteps emptyCache treeFn (MState.init [fixtureTestNoCache])
    [.setRevs ["c1"], .acquire 0]).getD (MState.init [])

/-- Persistent property of a job cancelled while not yet past resource
acquisition: the token stays cancelled, every live task of the job is
still waiting, the job has never emitted `Started`, and it has performed
no action (in particular it has not spawned a child). -/
def cwInv (s : MState) (j : Nat) : Prop :=
  j ∈ s.canceledTokens ∧ j < s.nextJobId ∧
  (∀ t ∈ s.tasks, t.jobId = j → t.phase = .waiting) ∧
  TestStatus.started ∉ jobStatuses s.trace j ∧ actsOf s.trace j = []

/-- The intermediate and final states of the C2 witness execution. -/
def c2WitnessMid : MState :=
  (runSteps emptyCache treeFn (MState.init [fixtureTestByCommit])
    [.setRevs ["c1"], .setRevs []]).getD (MState.init [])

/-- Final state of the C2 witness execution. -/
def c2WitnessEnd : MState :=
  (runSteps emptyCache treeFn c2WitnessMid [.cancelWaiting 0]).getD
    (MState.init [])

/-!
## C7 — settled predicate
-/

/-- `JobCounter::zero` modelled over the sequence of counter values it can
observe (the head is the value read at entry via `borrow()`; later entries
are the values seen by `wait_for` on the watch channel): it returns at the
first observed zero — immediately, at index 0, when the counter is zero on
entry — and keeps waiting otherwise. -/
def JobCounter.zeroReturnIndex : List Nat → Option Nat
  | [] => none
  | c :: rest =>
      if c = 0 then some 0
      else (JobCounter.zeroReturnIndex rest).map (fun i => i + 1)

/-- Final state of the C7 witness execution: one job runs to completion
and the desired set is emptied; the counter is zero. -/
def c7WitnessState : MState :=
  (runSteps emptyCache treeFn (MState.init [fixtureTestByCommit])
    [.setRevs ["c1"], .acquire 0, .finish 0 none (.childDone (.exited 0)),
     .setRevs []]).getD (MState.init [])

/-- A concrete test case for the fixture `ByCommit` test. -/
def fixtureCaseByCommit : TestCase :=
  { commit_hash := "c1", cache_hash := some "c1", test := fixtureTestByCommit }

/-- Final state of the C6 witness execution. -/
def c6WitnessState : MState :=
  (runSteps emptyCache treeFn (MState.init [fixtureTestByCommit])
    [.setRevs ["c1"], .acquire 0,
     .finish 0 none (.childDone (.exited 7))]).getD (MState.init [])

/-- A result database in which every lookup hits with exit code 0. -/
def fullCache : CacheFn := fun _ _ _ => some (TestResult.mk 0)

/-- Start state of the C3 witness. -/
def c3WitnessStart : MState := MState.init [fixtureTestByCommit]

/-- End state of the C3 witness `set_revisions` call. -/
def c3WitnessEnd : MState :=
  (c3WitnessStart.setRevisions fullCache treeFn ["c1"]).toOption.getD
    (MState.init [])

/-- The test cases built for the C3 witness call. -/
def c3WitnessTcs : List TestCase :=
  (buildTestCases treeFn c3WitnessStart.tests ["c1"]).toOption.getD []

/-- The test case of the fixture test with caching disabled. -/
def fixtureCaseNoCache : TestCase :=
  { commit_hash := "c1", cache_hash := none, test := fixtureTestNoCache }

/-- Start state of the C10 witness. -/
def c10WitnessStart : MState := MState.init [fixtureTestNoCache]

/-- End state of the C10 witness `set_revisions` call. -/
def c10WitnessEnd : MState :=
  (c10WitnessStart.setRevisions emptyCache treeFn ["c1"]).toOption.getD
    (MState.init [])

/-- The test cases built for the C10 witness call. -/
def c10WitnessTcs : List TestCase :=
  (buildTestCases treeFn c10WitnessStart.tests ["c1"]).toOption.getD []

/-!
## C9 — persistence of the cancellation map
-/

/-- Is this event an `Enqueued` notification for the given identity? -/
def isEnqueuedFor (id : TestCaseId) (e : Event) : Bool :=
  match e with
  | .notif _ tc .enqueued => tc.caseId = id
  | _ => false

/-- Number of `Enqueued` notifications for an identity in a trace. -/
def countEnqueuedFor (tr : List Event) (id : TestCaseId) : Nat :=
  (tr.filter (isEnqueuedFor id)).length

/-- States of the C9 witness: a `NoCaching` test is desired, runs to
completion, and the same revision set is requested again. -/
def c9WitnessS1 : MState :=
  ((MState.init [fixtureTestNoCache]).setRevisions emptyCache treeFn
    ["c1"]).toOption.getD (MState.init [])

/-- After the job of the C9 witness has run to completion. -/
def c9WitnessS2 : MState :=
  (runSteps emptyCache treeFn c9WitnessS1
    [.acquire 0, .finish 0 none (.childDone (.exited 0))]).getD (MState.init [])

/-- After the second identical `set_revisions` call of the C9 witness. -/
def c9WitnessS3 : MState :=
  (c9WitnessS2.setRevisions emptyCache treeFn ["c1"]).toOption.getD
    (MState.init [])

/-- The test cases built for the C9 witness calls. -/
def c9WitnessTcs : List TestCase :=
  (buildTestCases treeFn (MState.init [fixtureTestNoCache]).tests
    ["c1"]).toOption.getD []

theorem superviseAcquired_isTerminal (tc : TestCase) (cof : Option String)
    (fate : RunFate) : (superviseAcquired tc cof fate).2.1.isTerminal = true := by
  unfold superviseAcquired
  rcases h : (if tc.test.needsWorktree then TestJob.checkoutAndRun tc cof fate
    else TestJob.run fate) with ⟨acts, r⟩
  simp only [h]
  rcases r with msg | o
  · simp [TestStatus.isTerminal]
  · rcases o with _ | code <;> simp [TestStatus.isTerminal]

/-- `set_result` is recorded exactly when the status is `Completed`, and
the recorded result is the completed one. -/
theorem superviseAcquired_setResult_iff (tc : TestCase) (cof : Option String)
    (fate : RunFate) (r : TestResult) :
    (superviseAcquired tc cof fate).2.2 = some r ↔
      (superviseAcquired tc cof fate).2.1 = .completed r := by
  unfold superviseAcquired
  rcases h : (if tc.test.needsWorktree then TestJob.checkoutAndRun tc cof fate
    else TestJob.run fate) with ⟨acts, res⟩
  simp only [h]
  rcases res with msg | o
  · simp
  · rcases o with _ | code <;> simp [TestResult.mk.injEq, eq_comm]

/-!
## List helper lemmas
-/

theorem filter_eq_filter_of_ne {l : List JobTask} {j j' : Nat} (h : j ≠ j') :
    (l.filter (fun t => ¬ t.jobId = j)).filter (fun t => t.jobId = j') =
      l.filter (fun t => t.jobId = j') := by
  rw [List.filter_filter]
  refine List.filter_congr (fun t _ => ?_)
  by_cases hj' : t.jobId = j'
  · have hj : ¬ t.jobId = j := by omega
    simp [hj', hj]
    omega
  · simp [hj']

theorem filter_self_eq_nil (l : List JobTask) (j : Nat) :
    (l.filter (fun t => ¬ t.jobId = j)).filter (fun t => t.jobId = j) = [] := by
  rw [List.filter_filter]
  refine List.filter_eq_nil_iff.mpr (fun t _ => ?_)
  by_cases hj : t.jobId = j <;> simp [hj]

theorem length_filter_split (l : List JobTask) (j : Nat) :
    (l.filter (fun t => t.jobId = j)).length +
      (l.filter (fun t => ¬ t.jobId = j)).length = l.length := by
  induction l with
  | nil => rfl
  | cons t rest ih =>
      by_cases hj : t.jobId = j
      · rw [List.filter_cons, List.filter_cons, if_pos (by simp [hj]),
          if_neg (by simp [hj])]
        simp only [List.length_cons]
        omega
      · rw [List.filter_cons, List.filter_cons, if_neg (by simp [hj]),
          if_pos (by simp [hj])]
        simp only [List.length_cons]
        omega

theorem map_update_filter_ne {l : List JobTask} {j j' : Nat} (h : j ≠ j') :
    ((l.map (fun t => if t.jobId = j then { t with phase := .running } else t)).filter
        (fun t => t.jobId = j')) =
      l.filter (fun t => t.jobId = j') := by
  induction l with
  | nil => rfl
  | cons t rest ih =>
      by_cases hj : t.jobId = j
      · have hj' : ¬ t.jobId = j' := by omega
        simp only [List.map_cons, if_pos hj, List.filter_cons]
        have hj'' : ¬ (j = j') := h
        simp [hj, hj', hj'', ih]
      · simp only [List.map_cons, if_neg hj, List.filter_cons]
        by_cases hj' : t.jobId = j' <;> simp [hj', ih]

theorem map_update_filter_self (l : List JobTask) (j : Nat) :
    ((l.map (fun t => if t.jobId = j then { t with phase := .running } else t)).filter
        (fun t => t.jobId = j)) =
      (l.filter (fun t => t.jobId = j)).map
        (fun t => { t with phase := .running }) := by
  induction l with
  | nil => rfl
  | cons t rest ih =>
      by_cases hj : t.jobId = j
      · simp only [List.map_cons, if_pos hj, List.filter_cons]
        simp [hj, ih]
      · simp only [List.map_cons, if_neg hj, List.filter_cons]
        simp [hj, ih]

theorem filter_eq_nil_of_lt {l : List JobTask} {n j : Nat}
    (hall : ∀ t ∈ l, t.jobId < n) (hj : n ≤ j) :
    l.filter (fun t => t.jobId = j) = [] := by
  refine List.filter_eq_nil_iff.mpr (fun t ht => ?_)
  have := hall t ht
  simp only [decide_eq_true_eq]
  omega

/-!
## Projection compute lemmas
-/

theorem jobStatuses_append (tr tr' : List Event) (j : Nat) :
    jobStatuses (tr ++ tr') j = jobStatuses tr j ++ jobStatuses tr' j :=
  List.filterMap_append tr tr' _

theorem actsOf_append (tr tr' : List Event) (j : Nat) :
    actsOf (tr ++ tr') j = actsOf tr j ++ actsOf tr' j :=
  List.filterMap_append tr tr' _

theorem setResultsOf_append (tr tr' : List Event) (j : Nat) :
    setResultsOf (tr ++ tr') j = setResultsOf tr j ++ setResultsOf tr' j :=
  List.filterMap_append tr tr' _

theorem tcStatuses_append (tr tr' : List Event) (id : TestCaseId) :
    tcStatuses (tr ++ tr') id = tcStatuses tr id ++ tcStatuses tr' id :=
  List.filterMap_append tr tr' _

theorem jobStatuses_cons (e : Event) (tr : List Event) (j : Nat) :
    jobStatuses (e :: tr) j =
      (match e with
       | .notif (some j') _ st =>
           if j' = j then st :: jobStatuses tr j else jobStatuses tr j
       | _ => jobStatuses tr j) := by
  cases e with
  | notif src tc st =>
      cases src with
      | none => simp [jobStatuses, List.filterMap_cons]
      | some j' =>
          by_cases hj : j' = j <;> simp [jobStatuses, List.filterMap_cons, hj]
  | createOutput a b c d => simp [jobStatuses, List.filterMap_cons]
  | setResult a b => simp [jobStatuses, List.filterMap_cons]
  | act a b => simp [jobStatuses, List.filterMap_cons]

theorem actsOf_cons (e : Event) (tr : List Event) (j : Nat) :
    actsOf (e :: tr) j =
      (match e with
       | .act j' a => if j' = j then a :: actsOf tr j else actsOf tr j
       | _ => actsOf tr j) := by
  cases e with
  | notif src tc st => simp [actsOf, List.filterMap_cons]
  | createOutput a b c d => simp [actsOf, List.filterMap_cons]
  | setResult a b => simp [actsOf, List.filterMap_cons]
  | act j' a =>
      by_cases hj : j' = j <;> simp [actsOf, List.filterMap_cons, hj]

theorem setResultsOf_cons (e : Event) (tr : List Event) (j : Nat) :
    setResultsOf (e :: tr) j =
      (match e with
       | .setResult j' r => if j' = j then r :: setResultsOf tr j else setResultsOf tr j
       | _ => setResultsOf tr j) := by
  cases e with
  | notif src tc st => simp [setResultsOf, List.filterMap_cons]
  | createOutput a b c d => simp [setResultsOf, List.filterMap_cons]
  | setResult j' r =>
      by_cases hj : j' = j <;> simp [setResultsOf, List.filterMap_cons, hj]
  | act a b => simp [setResultsOf, List.filterMap_cons]

theorem tcStatuses_cons (e : Event) (tr : List Event) (id : TestCaseId) :
    tcStatuses (e :: tr) id =
      (match e with
       | .notif _ tc st =>
           if tc.caseId = id then st :: tcStatuses tr id else tcStatuses tr id
       | _ => tcStatuses tr id) := by
  cases e with
  | notif src tc st =>
      by_cases hid : tc.caseId = id <;> simp [tcStatuses, List.filterMap_cons, hid]
  | createOutput a b c d => simp [tcStatuses, List.filterMap_cons]
  | setResult a b => simp [tcStatuses, List.filterMap_cons]
  | act a b => simp [tcStatuses, List.filterMap_cons]

theorem inv_init (tests : List Test) : MInv (MState.init tests) := by
  constructor <;>
    simp [MState.init, MState.tasksOf, jobView, jobStatuses, actsOf, setResultsOf]

theorem jobStatuses_nil (j : Nat) : jobStatuses [] j = [] := rfl

theorem actsOf_nil (j : Nat) : actsOf [] j = [] := rfl

theorem setResultsOf_nil (j : Nat) : setResultsOf [] j = [] := rfl

theorem tcStatuses_nil (id : TestCaseId) : tcStatuses [] id = [] := rfl

theorem inv_startOne (cache : CacheFn) {s : MState} (h : MInv s) (tc : TestCase) :
    MInv (startOne cache s tc) := by
  unfold startOne
  cases hcl : Manager.cacheLookup cache tc with
  | some r =>
      dsimp only
      refine ⟨h.counter_eq, h.tasks_lt, h.canceled_lt, h.cts_lt, ?_, ?_, ?_, ?_⟩
      · intro j
        have hv := h.jobs j
        unfold jobView MState.tasksOf at hv ⊢
        simp only [jobStatuses_append, jobStatuses_cons, jobStatuses_nil,
          List.append_nil]
        exact hv
      · intro j
        have := h.acts_started j
        simp only [actsOf_append, actsOf_cons, actsOf_nil, List.append_nil,
          jobStatuses_append, jobStatuses_cons, jobStatuses_nil]
        exact this
      · intro j
        have := h.set_results j
        simp only [setResultsOf_append, setResultsOf_cons, setResultsOf_nil,
          List.append_nil, jobStatuses_append, jobStatuses_cons, jobStatuses_nil]
        exact this
      · intro j hj
        have := h.fresh j hj
        simp only [jobStatuses_append, jobStatuses_cons, jobStatuses_nil,
          actsOf_append, actsOf_cons, actsOf_nil, setResultsOf_append,
          setResultsOf_cons, setResultsOf_nil, List.append_nil]
        exact this
  | none =>
      dsimp only
      have hfr := h.fresh s.nextJobId (Nat.le_refl _)
      constructor
      · simp [h.counter_eq]
      · intro t ht
        simp only [List.mem_append, List.mem_singleton] at ht
        rcases ht with ht | ht
        · exact Nat.lt_succ_of_lt (h.tasks_lt t ht)
        · subst ht; exact Nat.lt_succ_self _
      · intro j hj
        exact Nat.lt_succ_of_lt (h.canceled_lt j hj)
      · intro p hp
        simp only [List.mem_append, List.mem_singleton] at hp
        rcases hp with hp | hp
        · exact Nat.lt_succ_of_lt (h.cts_lt p hp)
        · subst hp; exact Nat.lt_succ_self _
      · intro j
        by_cases hj : s.nextJobId = j
        · subst hj
          refine Or.inr (Or.inl ⟨tc, ?_, ?_⟩)
          · unfold MState.tasksOf
            simp only [List.filter_append,
              filter_eq_nil_of_lt h.tasks_lt (Nat.le_refl _), List.nil_append]
            simp
          · simp only [jobStatuses_append, jobStatuses_cons, jobStatuses_nil,
              hfr.1]
            simp
        · have hv := h.jobs j
          unfold jobView MState.tasksOf at hv ⊢
          simp only [List.filter_append, jobStatuses_append, jobStatuses_cons,
            jobStatuses_nil] at hv ⊢
          have hne : ¬ ({ jobId := s.nextJobId, tc := tc, phase := .waiting } :
              JobTask).jobId = j := hj
          simp only [List.filter_cons, List.filter_nil, hne, decide_eq_true_eq,
            if_neg hne, List.append_nil, hj, if_neg hj]
          simpa using hv
      · intro j
        simp only [actsOf_append, actsOf_cons, actsOf_nil, List.append_nil,
          jobStatuses_append, jobStatuses_cons, jobStatuses_nil]
        by_cases hj : s.nextJobId = j
        · subst hj
          simp [hfr.2.1]
        · simp only [if_neg hj, List.append_nil]
          exact h.acts_started j
      · intro j
        simp only [setResultsOf_append, setResultsOf_cons, setResultsOf_nil,
          List.append_nil, jobStatuses_append, jobStatuses_cons, jobStatuses_nil]
        by_cases hj : s.nextJobId = j
        · subst hj
          simp [hfr.1, hfr.2.2, h.set_results]
        · simp only [if_neg hj, List.append_nil]
          exact h.set_results j
      · intro j hj
        have hj0 : s.nextJobId + 1 ≤ j := hj
        have hj' : s.nextJobId ≤ j := Nat.le_of_succ_le hj0
        have hne : ¬ s.nextJobId = j := by omega
        have := h.fresh j hj'
        simp only [jobStatuses_append, jobStatuses_cons, jobStatuses_nil,
          actsOf_append, actsOf_cons, actsOf_nil, setResultsOf_append,
          setResultsOf_cons, setResultsOf_nil, List.append_nil, if_neg hne]
        exact this

/-!
## Invariant preservation
-/

theorem setRevisions_ok {cache : CacheFn} {repo : CommitTreeFn}
    {revs : List CommitHash} {s s' : MState}
    (h : s.setRevisions cache repo revs = .ok s') :
    ∃ tcs, buildTestCases repo s.tests revs = .ok tcs ∧
      s' = applySetRevs cache s tcs := by
  unfold MState.setRevisions at h
  cases hb : buildTestCases repo s.tests revs with
  | error e => rw [hb] at h; cases h
  | ok tcs =>
      rw [hb] at h
      refine ⟨tcs, rfl, ?_⟩
      cases h
      rfl

theorem inv_cancelPhase {s : MState} (h : MInv s)
    (testCases : List (TestCaseId × TestCase)) :
    MInv (cancelPhase s testCases) := by
  unfold cancelPhase
  refine ⟨h.counter_eq, h.tasks_lt, ?_, ?_, h.jobs, h.acts_started,
    h.set_results, h.fresh⟩
  · intro j hj
    show j < s.nextJobId
    simp only [List.mem_append] at hj
    rcases hj with hj | hj
    · exact h.canceled_lt j hj
    · rcases List.mem_map.mp hj with ⟨p, hp, hpe⟩
      have := h.cts_lt p (List.mem_filter.mp hp).1
      omega
  · intro p hp
    exact h.cts_lt p (List.mem_filter.mp hp).1

theorem inv_startList (cache : CacheFn) {s : MState} (h : MInv s)
    (l : List TestCase) : MInv (startList cache s l) := by
  induction l generalizing s with
  | nil => exact h
  | cons tc rest ih => exact ih (inv_startOne cache h tc)

theorem inv_applySetRevs (cache : CacheFn) {s : MState} (h : MInv s)
    (tcs : List TestCase) : MInv (applySetRevs cache s tcs) :=
  inv_startList cache (inv_cancelPhase h _) _

theorem inv_setRevisions {cache : CacheFn} {repo : CommitTreeFn}
    {revs : List CommitHash} {s s' : MState} (h : MInv s)
    (hs : s.setRevisions cache repo revs = .ok s') : MInv s' := by
  rcases setRevisions_ok hs with ⟨tcs, _, rfl⟩
  exact inv_applySetRevs cache h tcs

theorem jobView_of_waiting {s : MState} {j : Nat} {t : JobTask} (h : MInv s)
    (ht : s.tasksOf j = [t]) (hw : t.phase = .waiting) :
    t.jobId = j ∧ jobStatuses s.trace j = [.enqueued] := by
  rcases h.jobs j with ⟨hnil, _⟩ | ⟨tc, heq, hst⟩ | ⟨tc, heq, hst⟩
  · rw [ht] at hnil; cases hnil
  · rw [ht] at heq
    injection heq with h1
    subst h1
    exact ⟨rfl, hst⟩
  · rw [ht] at heq
    injection heq with h1
    subst h1
    cases hw

theorem jobView_of_running {s : MState} {j : Nat} {t : JobTask} (h : MInv s)
    (ht : s.tasksOf j = [t]) (hw : t.phase = .running) :
    t.jobId = j ∧ jobStatuses s.trace j = [.enqueued, .started] := by
  rcases h.jobs j with ⟨hnil, _⟩ | ⟨tc, heq, hst⟩ | ⟨tc, heq, hst⟩
  · rw [ht] at hnil; cases hnil
  · rw [ht] at heq
    injection heq with h1
    subst h1
    cases hw
  · rw [ht] at heq
    injection heq with h1
    subst h1
    exact ⟨rfl, hst⟩

theorem mem_of_tasksOf {s : MState} {j : Nat} {t : JobTask}
    (ht : s.tasksOf j = [t]) : t ∈ s.tasks := by
  have : t ∈ s.tasksOf j := by rw [ht]; simp
  exact (List.mem_filter.mp this).1

theorem jobStatuses_actMap (acts : List JobAction) (j j' : Nat) :
    jobStatuses (acts.map (Event.act j)) j' = [] := by
  induction acts with
  | nil => rfl
  | cons a rest ih => simp [jobStatuses_cons, ih]

theorem actsOf_actMap_self (acts : List JobAction) (j : Nat) :
    actsOf (acts.map (Event.act j)) j = acts := by
  induction acts with
  | nil => rfl
  | cons a rest ih => simp [actsOf_cons, ih]

theorem actsOf_actMap_ne (acts : List JobAction) {j j' : Nat} (h : ¬ j = j') :
    actsOf (acts.map (Event.act j)) j' = [] := by
  induction acts with
  | nil => rfl
  | cons a rest ih => simp [actsOf_cons, h, ih]

theorem setResultsOf_actMap (acts : List JobAction) (j j' : Nat) :
    setResultsOf (acts.map (Event.act j)) j' = [] := by
  induction acts with
  | nil => rfl
  | cons a rest ih => simp [setResultsOf_cons, ih]

theorem tcStatuses_actMap (acts : List JobAction) (j : Nat) (id : TestCaseId) :
    tcStatuses (acts.map (Event.act j)) id = [] := by
  induction acts with
  | nil => rfl
  | cons a rest ih => simp [tcStatuses_cons, ih]

theorem jobStatuses_setResEvents (j j' : Nat) (o : Option TestResult) :
    jobStatuses (setResEvents j o) j' = [] := by
  cases o <;> simp [setResEvents, jobStatuses_cons, jobStatuses_nil]

theorem actsOf_setResEvents (j j' : Nat) (o : Option TestResult) :
    actsOf (setResEvents j o) j' = [] := by
  cases o <;> simp [setResEvents, actsOf_cons, actsOf_nil]

theorem setResultsOf_setResEvents_self (j : Nat) (o : Option TestResult) :
    setResultsOf (setResEvents j o) j =
      (match o with | some r => [r] | none => []) := by
  cases o <;> simp [setResEvents, setResultsOf_cons, setResultsOf_nil]

theorem setResultsOf_setResEvents_ne {j j' : Nat} (h : ¬ j = j')
    (o : Option TestResult) : setResultsOf (setResEvents j o) j' = [] := by
  cases o <;> simp [setResEvents, setResultsOf_cons, setResultsOf_nil, h]

theorem tcStatuses_setResEvents (j : Nat) (o : Option TestResult)
    (id : TestCaseId) : tcStatuses (setResEvents j o) id = [] := by
  cases o <;> simp [setResEvents, tcStatuses_cons, tcStatuses_nil]

theorem superviseAcquired_res_status (tc : TestCase) (cof : Option String)
    (fate : RunFate) :
    (match (superviseAcquired tc cof fate).2.2 with
      | some r => [r]
      | none => ([] : List TestResult)) =
    (match (superviseAcquired tc cof fate).2.1 with
      | .completed r => [r]
      | _ => []) := by
  unfold superviseAcquired
  rcases h : (if tc.test.needsWorktree then TestJob.checkoutAndRun tc cof fate
    else TestJob.run fate) with ⟨acts, res⟩
  simp only [h]
  rcases res with msg | o
  · simp
  · rcases o with _ | code <;> simp

theorem inv_cancelWaiting {cache : CacheFn} {repo : CommitTreeFn}
    {s s' : MState} {j : Nat} (h : MInv s)
    (hs : applyStep cache repo s (.cancelWaiting j) = some s') : MInv s' := by
  unfold applyStep at hs
  dsimp only at hs
  cases ht : s.tasksOf j with
  | nil => rw [ht] at hs; simp at hs
  | cons t rest =>
      cases rest with
      | cons t2 r2 => rw [ht] at hs; simp at hs
      | nil =>
          rw [ht] at hs
          dsimp only at hs
          by_cases hc : t.phase = .waiting ∧ j ∈ s.canceledTokens
          · rw [if_pos hc] at hs
            injection hs with hs
            subst hs
            obtain ⟨hid, hE⟩ := jobView_of_waiting h ht hc.1
            have hfil : s.tasks.filter (fun t' => t'.jobId = j) = [t] := ht
            constructor
            · show s.counter - 1 =
                (s.tasks.filter (fun t' => ¬ t'.jobId = j)).length
              have hsplit := length_filter_split s.tasks j
              rw [hfil] at hsplit
              have hce := h.counter_eq
              simp only [List.length_cons, List.length_nil] at hsplit
              omega
            · intro t' ht'
              exact h.tasks_lt t' (List.mem_filter.mp ht').1
            · exact h.canceled_lt
            · exact h.cts_lt
            · intro j'
              by_cases hj : j' = j
              · subst hj
                refine Or.inl ⟨?_, Or.inr (Or.inl ?_)⟩
                · exact filter_self_eq_nil s.tasks j'
                · exact hE
              · have hv := h.jobs j'
                unfold jobView MState.tasksOf at hv ⊢
                show (List.filter (fun t' => ¬ t'.jobId = j) s.tasks).filter
                    (fun t => t.jobId = j') = [] ∧ _ ∨ _
                rw [filter_eq_filter_of_ne (show j ≠ j' by omega)]
                exact hv
            · exact h.acts_started
            · exact h.set_results
            · exact h.fresh
          · rw [if_neg hc] at hs; cases hs

theorem inv_acquire {cache : CacheFn} {repo : CommitTreeFn}
    {s s' : MState} {j : Nat} (h : MInv s)
    (hs : applyStep cache repo s (.acquire j) = some s') : MInv s' := by
  unfold applyStep at hs
  dsimp only at hs
  cases ht : s.tasksOf j with
  | nil => rw [ht] at hs; simp at hs
  | cons t rest =>
      cases rest with
      | cons t2 r2 => rw [ht] at hs; simp at hs
      | nil =>
          rw [ht] at hs
          dsimp only at hs
          by_cases hc : t.phase = .waiting ∧ j ∉ s.canceledTokens
          · rw [if_pos hc] at hs
            injection hs with hs
            subst hs
            obtain ⟨hid, hE⟩ := jobView_of_waiting h ht hc.1
            have hfil : s.tasks.filter (fun t' => t'.jobId = j) = [t] := ht
            have hlt := h.tasks_lt t (mem_of_tasksOf ht)
            have hjlt : j < s.nextJobId := by omega
            refine ⟨?_, ?_, h.canceled_lt, h.cts_lt, ?_, ?_, ?_, ?_⟩
            · simpa using h.counter_eq
            · intro t' ht'
              rcases List.mem_map.mp ht' with ⟨t0, ht0, rfl⟩
              by_cases h0 : t0.jobId = j
              · simpa [h0] using hjlt
              · simpa [h0] using h.tasks_lt t0 ht0
            · intro j'
              by_cases hj : j' = j
              · subst hj
                refine Or.inr (Or.inr ⟨t.tc, ?_, ?_⟩)
                · show (s.tasks.map
                      (fun t' => if t'.jobId = j' then { t' with phase := .running }
                        else t')).filter (fun t'' => t''.jobId = j') = _
                  rw [map_update_filter_self, hfil]
                  simp [hid]
                · simp [jobStatuses_append, jobStatuses_cons, jobStatuses_nil, hE]
              · have hv := h.jobs j'
                unfold jobView MState.tasksOf at hv ⊢
                rw [show (MState.mk s.tests s.nextJobId s.jobCts s.canceledTokens
                    (s.tasks.map (fun t' => if t'.jobId = j then
                      { t' with phase := .running } else t')) s.counter
                    (s.trace ++ [.notif (some j) t.tc .started])).tasks =
                  s.tasks.map (fun t' => if t'.jobId = j then
                    { t' with phase := .running } else t') from rfl]
                rw [map_update_filter_ne (show j ≠ j' by omega)]
                have hne : ¬ j = j' := by omega
                simp only [jobStatuses_append, jobStatuses_cons, jobStatuses_nil,
                  if_neg hne, List.append_nil]
                exact hv
            · intro j' hna
              simp only [actsOf_append, actsOf_cons, actsOf_nil,
                List.append_nil] at hna
              by_cases hj : j = j'
              · subst hj
                simp [jobStatuses_append, jobStatuses_cons, jobStatuses_nil, hE]
              · simp only [jobStatuses_append, jobStatuses_cons, jobStatuses_nil,
                  if_neg hj, List.append_nil]
                exact h.acts_started j' hna
            · intro j'
              simp only [setResultsOf_append, setResultsOf_cons, setResultsOf_nil,
                List.append_nil, jobStatuses_append, jobStatuses_cons,
                jobStatuses_nil]
              by_cases hj : j = j'
              · subst hj
                simp [List.filterMap_append, h.set_results j]
              · simp [if_neg hj, h.set_results j']
            · intro k hk
              have hk2 : s.nextJobId ≤ k := hk
              have hkj : ¬ j = k := by omega
              have hf := h.fresh k hk2
              simp only [jobStatuses_append, jobStatuses_cons, jobStatuses_nil,
                actsOf_append, actsOf_cons, actsOf_nil, setResultsOf_append,
                setResultsOf_cons, setResultsOf_nil, List.append_nil, if_neg hkj]
              exact hf
          · rw [if_neg hc] at hs; cases hs

theorem inv_finish {cache : CacheFn} {repo : CommitTreeFn}
    {s s' : MState} {j : Nat} {cof : Option String} {fate : RunFate} (h : MInv s)
    (hs : applyStep cache repo s (.finish j cof fate) = some s') : MInv s' := by
  unfold applyStep at hs
  dsimp only at hs
  cases ht : s.tasksOf j with
  | nil => rw [ht] at hs; simp at hs
  | cons t rest =>
      cases rest with
      | cons t2 r2 => rw [ht] at hs; simp at hs
      | nil =>
          rw [ht] at hs
          dsimp only at hs
          by_cases hc : t.phase = .running
          · rw [if_pos hc] at hs
            injection hs with hs
            subst hs
            obtain ⟨hid, hES⟩ := jobView_of_running h ht hc
            have hfil : s.tasks.filter (fun t' => t'.jobId = j) = [t] := ht
            have hlt := h.tasks_lt t (mem_of_tasksOf ht)
            have hterm := superviseAcquired_isTerminal t.tc cof fate
            refine ⟨?_, ?_, h.canceled_lt, h.cts_lt, ?_, ?_, ?_, ?_⟩
            · have hsplit := length_filter_split s.tasks j
              rw [hfil] at hsplit
              have hce := h.counter_eq
              simp only [List.length_cons, List.length_nil] at hsplit
              show s.counter - 1 =
                (s.tasks.filter (fun t' => ¬ t'.jobId = j)).length
              omega
            · intro t' ht'
              exact h.tasks_lt t' (List.mem_filter.mp ht').1
            · intro j'
              by_cases hj : j' = j
              · subst hj
                refine Or.inl ⟨filter_self_eq_nil s.tasks j',
                  Or.inr (Or.inr ⟨(superviseAcquired t.tc cof fate).2.1,
                    hterm, ?_⟩)⟩
                simp [jobStatuses_append, jobStatuses_actMap,
                  jobStatuses_setResEvents, jobStatuses_cons, jobStatuses_nil,
                  hES]
              · have hv := h.jobs j'
                unfold jobView MState.tasksOf at hv ⊢
                show (List.filter (fun t' => ¬ t'.jobId = j) s.tasks).filter
                    (fun t'' => t''.jobId = j') = [] ∧ _ ∨ _
                rw [filter_eq_filter_of_ne (show j ≠ j' by omega)]
                have hne : ¬ j = j' := by omega
                simp only [jobStatuses_append, jobStatuses_actMap,
                  jobStatuses_setResEvents, jobStatuses_cons, jobStatuses_nil,
                  if_neg hne, List.append_nil]
                exact hv
            · intro j' hna
              by_cases hj : j = j'
              · subst hj
                simp [jobStatuses_append, jobStatuses_actMap,
                  jobStatuses_setResEvents, jobStatuses_cons, jobStatuses_nil,
                  hES]
              · simp only [actsOf_append, actsOf_actMap_ne _ hj,
                  actsOf_setResEvents, actsOf_cons, actsOf_nil,
                  List.append_nil] at hna
                simp only [jobStatuses_append, jobStatuses_actMap,
                  jobStatuses_setResEvents, jobStatuses_cons, jobStatuses_nil,
                  if_neg hj, List.append_nil]
                exact h.acts_started j' hna
            · intro j'
              by_cases hj : j = j'
              · subst hj
                have hres := superviseAcquired_res_status t.tc cof fate
                simp only [setResultsOf_append, setResultsOf_actMap,
                  setResultsOf_setResEvents_self, setResultsOf_cons,
                  setResultsOf_nil, List.append_nil, jobStatuses_append,
                  jobStatuses_actMap, jobStatuses_setResEvents, jobStatuses_cons,
                  jobStatuses_nil, List.filterMap_append, h.set_results j, hES]
                rw [hres]
                cases hst : (superviseAcquired t.tc cof fate).2.1 <;> simp
              · simp only [setResultsOf_append, setResultsOf_actMap,
                  setResultsOf_setResEvents_ne hj, setResultsOf_cons,
                  setResultsOf_nil, List.append_nil, jobStatuses_append,
                  jobStatuses_actMap, jobStatuses_setResEvents, jobStatuses_cons,
                  jobStatuses_nil, if_neg hj, List.append_nil]
                exact h.set_results j'
            · intro k hk
              have hk2 : s.nextJobId ≤ k := hk
              have hkj : ¬ j = k := by omega
              have hf := h.fresh k hk2
              simp only [jobStatuses_append, jobStatuses_actMap,
                jobStatuses_setResEvents, jobStatuses_cons, jobStatuses_nil,
                actsOf_append, actsOf_actMap_ne _ hkj, actsOf_setResEvents,
                actsOf_cons, actsOf_nil, setResultsOf_append, setResultsOf_actMap,
                setResultsOf_setResEvents_ne hkj, setResultsOf_cons,
                setResultsOf_nil, List.append_nil, if_neg hkj]
              exact hf
          · rw [if_neg hc] at hs; cases hs

theorem inv_applyStep {cache : CacheFn} {repo : CommitTreeFn}
    {s s' : MState} {st : Step} (h : MInv s)
    (hs : applyStep cache repo s st = some s') : MInv s' := by
  cases st with
  | setRevs revs =>
      unfold applyStep at hs
      dsimp only at hs
      cases hr : s.setRevisions cache repo revs with
      | error e => rw [hr] at hs; simp [Except.toOption] at hs
      | ok s2 =>
          rw [hr] at hs
          simp only [Except.toOption, Option.some.injEq] at hs
          subst hs
          exact inv_setRevisions h hr
  | cancelWaiting j => exact inv_cancelWaiting h hs
  | acquire j => exact inv_acquire h hs
  | finish j cof fate => exact inv_finish h hs

theorem inv_runSteps {cache : CacheFn} {repo : CommitTreeFn}
    {s s' : MState} {steps : List Step} (h : MInv s)
    (hs : runSteps cache repo s steps = some s') : MInv s' := by
  induction steps generalizing s with
  | nil =>
      unfold runSteps at hs
      injection hs with hs
      subst hs
      exact h
  | cons st rest ih =>
      unfold runSteps at hs
      cases ha : applyStep cache repo s st with
      | none => rw [ha] at hs; cases hs
      | some s2 =>
          rw [ha] at hs
          exact ih (inv_applyStep h ha) hs

theorem startList_tests (cache : CacheFn) (l : List TestCase) (s : MState) :
    (startList cache s l).tests = s.tests := by
  induction l generalizing s with
  | nil => rfl
  | cons tc rest ih =>
      unfold startList
      rw [ih]
      unfold startOne
      cases Manager.cacheLookup cache tc <;> rfl

theorem startList_canceled (cache : CacheFn) (l : List TestCase) (s : MState) :
    (startList cache s l).canceledTokens = s.canceledTokens := by
  induction l generalizing s with
  | nil => rfl
  | cons tc rest ih =>
      unfold startList
      rw [ih]
      unfold startOne
      cases Manager.cacheLookup cache tc <;> rfl

theorem startList_trace (cache : CacheFn) (l : List TestCase) (s : MState) :
    (startList cache s l).trace = s.trace ++ startEvents cache s.nextJobId l := by
  induction l generalizing s with
  | nil => simp [startList, startEvents]
  | cons tc rest ih =>
      unfold startList startEvents
      rw [ih]
      unfold startOne
      cases hcl : Manager.cacheLookup cache tc with
      | some r => simp
      | none => simp

theorem startList_jobCts (cache : CacheFn) (l : List TestCase) (s : MState) :
    (startList cache s l).jobCts = s.jobCts ++ startCts cache s.nextJobId l := by
  induction l generalizing s with
  | nil => simp [startList, startCts]
  | cons tc rest ih =>
      unfold startList startCts
      rw [ih]
      unfold startOne
      cases hcl : Manager.cacheLookup cache tc with
      | some r => simp
      | none => simp

theorem startList_tasks (cache : CacheFn) (l : List TestCase) (s : MState) :
    (startList cache s l).tasks = s.tasks ++ startTasks cache s.nextJobId l := by
  induction l generalizing s with
  | nil => simp [startList, startTasks]
  | cons tc rest ih =>
      unfold startList startTasks
      rw [ih]
      unfold startOne
      cases hcl : Manager.cacheLookup cache tc with
      | some r => simp
      | none => simp

theorem startList_nextJobId_le (cache : CacheFn) (l : List TestCase) (s : MState) :
    s.nextJobId ≤ (startList cache s l).nextJobId := by
  induction l generalizing s with
  | nil => exact Nat.le_refl _
  | cons tc rest ih =>
      unfold startList
      refine Nat.le_trans ?_ (ih (startOne cache s tc))
      unfold startOne
      cases Manager.cacheLookup cache tc with
      | some r => exact Nat.le_refl _
      | none => exact Nat.le_succ _

/-!
## C8 — cache hash of a constructed test case
-/

/-- C8: for every commit hash and test, the test case constructed by
`TestCase::new` has a cache hash that is absent iff the cache policy is
`none`; under `by-commit` it equals the commit hash; under `by-tree` it
equals the tree hash obtained from the worktree interface's `commit_tree`
call; and the test case carries the given commit hash and test. -/
theorem c8_cache_hash_policy (repo : CommitTreeFn) (commit : CommitHash)
    (test : Test) (tc : TestCase)
    (h : TestCase.new repo commit test = .ok tc) :
    (tc.cache_hash = none ↔ test.cachePolicy = .noCaching) ∧
    (test.cachePolicy = .byCommit → tc.cache_hash = some commit) ∧
    (test.cachePolicy = .byTree →
      ∃ th, repo commit = .ok th ∧ tc.cache_hash = some th) ∧
    tc.commit_hash = commit ∧ tc.test = test := by
  unfold TestCase.new at h
  cases hp : test.cachePolicy with
  | noCaching =>
      rw [hp] at h
      simp only [pure, Except.pure, bind, Except.bind, Except.ok.injEq] at h
      subst h
      simp [hp]
  | byCommit =>
      rw [hp] at h
      simp only [pure, Except.pure, bind, Except.bind, Except.ok.injEq] at h
      subst h
      simp [hp]
  | byTree =>
      rw [hp] at h
      cases hr : repo commit with
      | error e =>
          rw [hr] at h
          simp [pure, Except.pure, bind, Except.bind] at h
      | ok th =>
          rw [hr] at h
          simp only [pure, Except.pure, bind, Except.bind, Except.ok.injEq] at h
          subst h
          simp [hp]

/-- Witness for C8 at a concrete `by-tree` input. -/
theorem c8_witness :
    (c8WitnessCase.cache_hash = none ↔
      fixtureTestByTree.cachePolicy = .noCaching) ∧
    (fixtureTestByTree.cachePolicy = .byCommit →
      c8WitnessCase.cache_hash = some "c1") ∧
    (fixtureTestByTree.cachePolicy = .byTree →
      ∃ th, treeFn "c1" = .ok th ∧ c8WitnessCase.cache_hash = some th) ∧
    c8WitnessCase.commit_hash = "c1" ∧ c8WitnessCase.test = fixtureTestByTree :=
  c8_cache_hash_policy treeFn "c1" fixtureTestByTree c8WitnessCase rfl

/-- C5 counterexample: when the grace period expires, the source delivers
SIGKILL and returns immediately — it does not await the child again as the
claim requires. -/
theorem c5_counterexample_no_await_after_sigkill : ¬ c5StatedCheck true := by
  unfold c5StatedCheck c5SpecCancelActions
  decide

/-- C5 (amended): on cancellation with signal delivery succeeding the
supervisor delivers SIGINT, awaits the child up to the test's shutdown
grace period, delivers SIGKILL if the grace expires and then returns
*without awaiting the child again*; the result is Cancelled regardless of
how the child died after the signal. -/
theorem c5_amended_cancellation_path (cf : CancelFate)
    (h1 : cf.sigintFails = false) (h2 : cf.sigkillFails = false) :
    TestJob.run (.canceled cf) =
      (JobAction.spawnChild :: .sigint :: .awaitChildGrace ::
        (if cf.childEndsWithinGrace then [] else [.sigkill]), .ok none) := by
  rcases cf with ⟨si, cg, sk⟩
  simp only at h1 h2
  subst h1
  subst h2
  cases cg <;> simp [TestJob.run]

/-- Witness for C5 (amended) at the grace-expired input. -/
theorem c5_witness :
    TestJob.run (.canceled (CancelFate.mk false false false)) =
      (JobAction.spawnChild :: .sigint :: .awaitChildGrace ::
        (if (CancelFate.mk false false false).childEndsWithinGrace then []
         else [.sigkill]), .ok none) :=
  c5_amended_cancellation_path (CancelFate.mk false false false) rfl rfl

/-- C1 counterexample: spawn one job, drop it from the desired set before
it acquires resources, and let its supervisor observe cancellation.  The
execution completes (no tasks remain) yet the spawned job's notifications
are exactly `[Enqueued]`: no `Cancelled` (and no other terminal
notification) is ever emitted, refuting the claim's 'exactly one terminal
notification, and Cancelled in particular, per spawned job'. -/
theorem c1_counterexample_canceled_while_waiting :
    (runSteps emptyCache treeFn (MState.init [fixtureTestByCommit])
        [.setRevs ["c1"], .setRevs [], .cancelWaiting 0]).map
      (fun s => (s.tasks.isEmpty, jobStatuses s.trace 0, c1StatedCheck s)) =
    some (true, [.enqueued], false) := by
  decide

/-- C1 (amended): over any completed execution (every supervisor task has
finished), each job emits at most one terminal notification, and exactly
one iff it emitted `Started`; consequently a job cancelled while still
waiting for resource acquisition emits no terminal notification at all
(and a job never spawned emits nothing). -/
theorem c1_amended_terminal_iff_started (cache : CacheFn) (repo : CommitTreeFn)
    (tests : List Test) (steps : List Step) (s : MState) (j : Nat)
    (h : runSteps cache repo (MState.init tests) steps = some s)
    (hdone : s.tasks = []) :
    countTerminal (jobStatuses s.trace j) ≤ 1 ∧
      (countTerminal (jobStatuses s.trace j) = 1 ↔
        TestStatus.started ∈ jobStatuses s.trace j) := by
  have hinv := inv_runSteps (inv_init tests) h
  have hnil : s.tasksOf j = [] := by
    unfold MState.tasksOf
    rw [hdone]
    rfl
  rcases hinv.jobs j with ⟨_, hcase⟩ | ⟨tc, heq, _⟩ | ⟨tc, heq, _⟩
  · rcases hcase with h0 | h0 | ⟨st, hstt, h0⟩ <;> rw [h0]
    · simp [countTerminal]
    · simp [countTerminal, TestStatus.isTerminal]
    · have h1 : countTerminal [TestStatus.enqueued, TestStatus.started, st] = 1 := by
        cases st <;> simp [countTerminal, TestStatus.isTerminal] at hstt ⊢
      rw [h1]
      exact ⟨by omega, by simp⟩
  · rw [hnil] at heq; cases heq
  · rw [hnil] at heq; cases heq

/-- Witness for C1 (amended) on a concrete completed execution. -/
theorem c1_witness :
    countTerminal (jobStatuses c1WitnessState.trace 0) ≤ 1 ∧
      (countTerminal (jobStatuses c1WitnessState.trace 0) = 1 ↔
        TestStatus.started ∈ jobStatuses c1WitnessState.trace 0) :=
  c1_amended_terminal_iff_started emptyCache treeFn [fixtureTestByCommit]
    [.setRevs ["c1"], .acquire 0, .finish 0 none (.childDone (.exited 0))]
    c1WitnessState 0 rfl rfl

/-- C4 counterexample: a test case whose test has cache policy `none`
completes, is dropped from the desired set, and is then desired again: the
same identity is spawned a second time, so a subscriber observes
`Enqueued` *after* the earlier terminal `Completed` — the claim's 'no
notification for that test case follows its terminal one' fails. -/
theorem c4_counterexample_rerun_after_terminal :
    (runSteps emptyCache treeFn (MState.init [fixtureTestNoCache])
        [.setRevs ["c1"], .acquire 0,
         .finish 0 none (.childDone (.exited 0)),
         .setRevs [], .setRevs ["c1"]]).map
      (fun s => (tcStatuses s.trace "c1:test_0", c4StatedCheck s.trace)) =
    some ([.enqueued, .started, .completed (TestResult.mk 0), .enqueued],
      false) := by
  decide

/-- C4 (amended): for each *spawned job* (one supervisor task), any
subscriber observes that job's notifications in state-machine order: the
possible sequences are nothing, `Enqueued`, `Enqueued, Started`, and
`Enqueued, Started, terminal` — so `Enqueued` strictly precedes `Started`,
`Started` strictly precedes the terminal notification, and no notification
of that job follows its terminal one.  (Per test-case *identity* the
original claim fails when the same identity is spawned again after a
terminal notification, e.g. under cache policy `none`.) -/
theorem c4_amended_per_job_order (cache : CacheFn) (repo : CommitTreeFn)
    (tests : List Test) (steps : List Step) (s : MState) (j : Nat)
    (h : runSteps cache repo (MState.init tests) steps = some s) :
    jobStatuses s.trace j = [] ∨
    jobStatuses s.trace j = [.enqueued] ∨
    jobStatuses s.trace j = [.enqueued, .started] ∨
    ∃ st, st.isTerminal = true ∧
      jobStatuses s.trace j = [.enqueued, .started, st] := by
  have hinv := inv_runSteps (inv_init tests) h
  rcases hinv.jobs j with ⟨_, h0 | h0 | ⟨st, h1, h2⟩⟩ | ⟨tc, _, h0⟩ | ⟨tc, _, h0⟩
  · exact Or.inl h0
  · exact Or.inr (Or.inl h0)
  · exact Or.inr (Or.inr (Or.inr ⟨st, h1, h2⟩))
  · exact Or.inr (Or.inl h0)
  · exact Or.inr (Or.inr (Or.inl h0))

/-- Witness for C4 (amended) on a concrete execution. -/
theorem c4_witness :
    jobStatuses c4WitnessState.trace 0 = [] ∨
    jobStatuses c4WitnessState.trace 0 = [.enqueued] ∨
    jobStatuses c4WitnessState.trace 0 = [.enqueued, .started] ∨
    ∃ st, st.isTerminal = true ∧
      jobStatuses c4WitnessState.trace 0 = [.enqueued, .started, st] :=
  c4_amended_per_job_order emptyCache treeFn [fixtureTestNoCache]
    [.setRevs ["c1"], .acquire 0] c4WitnessState 0 rfl

/-!
## C2 — cancellation before resource acquisition
-/

theorem startTasks_ids_ge (cache : CacheFn) (l : List TestCase) (n : Nat) :
    ∀ t ∈ startTasks cache n l, n ≤ t.jobId := by
  induction l generalizing n with
  | nil => intro t ht; cases ht
  | cons tc rest ih =>
      intro t ht
      unfold startTasks at ht
      cases hcl : Manager.cacheLookup cache tc with
      | some r =>
          rw [hcl] at ht
          exact ih n t ht
      | none =>
          rw [hcl] at ht
          rcases List.mem_cons.mp ht with rfl | ht
          · exact Nat.le_refl _
          · exact Nat.le_of_succ_le (ih (n + 1) t ht)

theorem jobStatuses_startEvents_lt (cache : CacheFn) (l : List TestCase)
    {n j : Nat} (h : j < n) : jobStatuses (startEvents cache n l) j = [] := by
  induction l generalizing n with
  | nil => rfl
  | cons tc rest ih =>
      unfold startEvents
      cases hcl : Manager.cacheLookup cache tc with
      | some r => simp [jobStatuses_cons, ih h]
      | none =>
          have hne : ¬ n = j := by omega
          simp [jobStatuses_cons, hne, ih (show j < n + 1 by omega)]

theorem actsOf_startEvents (cache : CacheFn) (l : List TestCase)
    (n j : Nat) : actsOf (startEvents cache n l) j = [] := by
  induction l generalizing n with
  | nil => rfl
  | cons tc rest ih =>
      unfold startEvents
      cases hcl : Manager.cacheLookup cache tc with
      | some r => simp [actsOf_cons, ih]
      | none => simp [actsOf_cons, ih]

theorem cancelPhase_trace (s : MState) (d : List (TestCaseId × TestCase)) :
    (cancelPhase s d).trace = s.trace := rfl

theorem cancelPhase_tasks (s : MState) (d : List (TestCaseId × TestCase)) :
    (cancelPhase s d).tasks = s.tasks := rfl

theorem cancelPhase_nextJobId (s : MState) (d : List (TestCaseId × TestCase)) :
    (cancelPhase s d).nextJobId = s.nextJobId := rfl

theorem cancelPhase_counter (s : MState) (d : List (TestCaseId × TestCase)) :
    (cancelPhase s d).counter = s.counter := rfl

theorem cancelPhase_tests (s : MState) (d : List (TestCaseId × TestCase)) :
    (cancelPhase s d).tests = s.tests := rfl

theorem cancelPhase_canceled (s : MState) (d : List (TestCaseId × TestCase)) :
    (cancelPhase s d).canceledTokens = s.canceledTokens ++
      ((s.jobCts.filter (fun p => ¬ d.any (fun q => q.1 = p.1))).map
        (fun p => p.2)) := rfl

theorem cancelPhase_jobCts (s : MState) (d : List (TestCaseId × TestCase)) :
    (cancelPhase s d).jobCts =
      s.jobCts.filter (fun p => d.any (fun q => q.1 = p.1)) := rfl

theorem jobId_of_tasksOf {s : MState} {j : Nat} {t : JobTask}
    (ht : s.tasksOf j = [t]) : t.jobId = j := by
  have hmem : t ∈ s.tasksOf j := by rw [ht]; simp
  have := (List.mem_filter.mp hmem).2
  simpa using this

theorem cwInv_applyStep {cache : CacheFn} {repo : CommitTreeFn}
    {s s' : MState} {st : Step} {j : Nat} (h : cwInv s j)
    (hs : applyStep cache repo s st = some s') : cwInv s' j := by
  obtain ⟨hc, hlt, hw, hns, ha⟩ := h
  cases st with
  | setRevs revs =>
      unfold applyStep at hs
      dsimp only at hs
      cases hr : s.setRevisions cache repo revs with
      | error e => rw [hr] at hs; simp [Except.toOption] at hs
      | ok s2 =>
          rw [hr] at hs
          simp only [Except.toOption, Option.some.injEq] at hs
          subst hs
          rcases setRevisions_ok hr with ⟨tcs, hb, rfl⟩
          unfold applySetRevs
          refine ⟨?_, ?_, ?_, ?_, ?_⟩
          · rw [startList_canceled, cancelPhase_canceled]
            exact List.mem_append.mpr (Or.inl hc)
          · have h2 := startList_nextJobId_le cache
              ((toStartOf s (desiredCases tcs)).map (fun p => p.2))
              (cancelPhase s (desiredCases tcs))
            rw [cancelPhase_nextJobId] at h2
            omega
          · intro t ht hid
            rw [startList_tasks, cancelPhase_tasks, cancelPhase_nextJobId] at ht
            rcases List.mem_append.mp ht with ht | ht
            · exact hw t ht hid
            · have := startTasks_ids_ge cache _ _ t ht
              omega
          · rw [startList_trace, cancelPhase_trace, cancelPhase_nextJobId,
              jobStatuses_append, jobStatuses_startEvents_lt cache _ hlt]
            simpa using hns
          · rw [startList_trace, cancelPhase_trace, actsOf_append,
              actsOf_startEvents]
            simpa using ha
  | cancelWaiting j' =>
      unfold applyStep at hs
      dsimp only at hs
      cases ht : s.tasksOf j' with
      | nil => rw [ht] at hs; simp at hs
      | cons t rest =>
          cases rest with
          | cons t2 r2 => rw [ht] at hs; simp at hs
          | nil =>
              rw [ht] at hs
              dsimp only at hs
              by_cases hcnd : t.phase = .waiting ∧ j' ∈ s.canceledTokens
              · rw [if_pos hcnd] at hs
                injection hs with hs
                subst hs
                refine ⟨hc, hlt, ?_, hns, ha⟩
                intro t' ht' hid
                exact hw t' (List.mem_filter.mp ht').1 hid
              · rw [if_neg hcnd] at hs; cases hs
  | acquire j' =>
      unfold applyStep at hs
      dsimp only at hs
      cases ht : s.tasksOf j' with
      | nil => rw [ht] at hs; simp at hs
      | cons t rest =>
          cases rest with
          | cons t2 r2 => rw [ht] at hs; simp at hs
          | nil =>
              rw [ht] at hs
              dsimp only at hs
              by_cases hcnd : t.phase = .waiting ∧ j' ∉ s.canceledTokens
              · rw [if_pos hcnd] at hs
                injection hs with hs
                subst hs
                by_cases hj : j' = j
                · subst hj
                  exact absurd hc hcnd.2
                · refine ⟨hc, hlt, ?_, ?_, ?_⟩
                  · intro t2 ht2 hid
                    rcases List.mem_map.mp ht2 with ⟨t0, ht0, rfl⟩
                    by_cases h0 : t0.jobId = j'
                    · rw [if_pos h0] at hid ⊢
                      exfalso
                      have hid' : t0.jobId = j := hid
                      omega
                    · rw [if_neg h0] at hid ⊢
                      exact hw t0 ht0 hid
                  · have hne : ¬ j' = j := hj
                    simp only [jobStatuses_append, jobStatuses_cons,
                      jobStatuses_nil, if_neg hne, List.append_nil]
                    exact hns
                  · simp only [actsOf_append, actsOf_cons, actsOf_nil,
                      List.append_nil]
                    exact ha
              · rw [if_neg hcnd] at hs; cases hs
  | finish j' cof fate =>
      unfold applyStep at hs
      dsimp only at hs
      cases ht : s.tasksOf j' with
      | nil => rw [ht] at hs; simp at hs
      | cons t rest =>
          cases rest with
          | cons t2 r2 => rw [ht] at hs; simp at hs
          | nil =>
              rw [ht] at hs
              dsimp only at hs
              by_cases hcnd : t.phase = .running
              · rw [if_pos hcnd] at hs
                injection hs with hs
                subst hs
                have hid := jobId_of_tasksOf ht
                by_cases hj : j' = j
                · subst hj
                  have := hw t (mem_of_tasksOf ht) hid
                  rw [hcnd] at this
                  cases this
                · refine ⟨hc, hlt, ?_, ?_, ?_⟩
                  · intro t' ht' hid'
                    exact hw t' (List.mem_filter.mp ht').1 hid'
                  · have hne : ¬ j' = j := hj
                    simp only [jobStatuses_append, jobStatuses_actMap,
                      jobStatuses_setResEvents, jobStatuses_cons,
                      jobStatuses_nil, if_neg hne, List.append_nil]
                    exact hns
                  · have hne : ¬ j' = j := hj
                    simp only [actsOf_append, actsOf_actMap_ne _ hne,
                      actsOf_setResEvents, actsOf_cons, actsOf_nil,
                      List.append_nil]
                    exact ha
              · rw [if_neg hcnd] at hs; cases hs

theorem cwInv_runSteps {cache : CacheFn} {repo : CommitTreeFn}
    {s s' : MState} {steps : List Step} {j : Nat} (h : cwInv s j)
    (hs : runSteps cache repo s steps = some s') : cwInv s' j := by
  induction steps generalizing s with
  | nil =>
      unfold runSteps at hs
      injection hs with hs
      subst hs
      exact h
  | cons st rest ih =>
      unfold runSteps at hs
      cases ha : applyStep cache repo s st with
      | none => rw [ha] at hs; cases hs
      | some s2 =>
          rw [ha] at hs
          exact ih (cwInv_applyStep h ha) hs

/-- C2: for every spawned job whose cancellation token is cancelled before
its resource acquisition completes (it has not emitted `Started` at the
point `s1` where the token is observed cancelled), the job never emits
`Started` in any continuation of the execution, and it performs no job
action at all — in particular its child process is never spawned. -/
theorem c2_canceled_never_starts (cache : CacheFn) (repo : CommitTreeFn)
    (tests : List Test) (steps1 steps2 : List Step) (s1 s2 : MState) (j : Nat)
    (h1 : runSteps cache repo (MState.init tests) steps1 = some s1)
    (hc : j ∈ s1.canceledTokens)
    (hns : TestStatus.started ∉ jobStatuses s1.trace j)
    (h2 : runSteps cache repo s1 steps2 = some s2) :
    TestStatus.started ∉ jobStatuses s2.trace j ∧
      actsOf s2.trace j = [] ∧
      JobAction.spawnChild ∉ actsOf s2.trace j := by
  have hinv := inv_runSteps (inv_init tests) h1
  have hacts : actsOf s1.trace j = [] := by
    by_cases hae : actsOf s1.trace j = []
    · exact hae
    · exact absurd (hinv.acts_started j hae) hns
  have htasks : ∀ t ∈ s1.tasks, t.jobId = j → t.phase = .waiting := by
    intro t ht hid
    have hmem : t ∈ s1.tasksOf j :=
      List.mem_filter.mpr ⟨ht, by simp [hid]⟩
    rcases hinv.jobs j with ⟨hnil, _⟩ | ⟨tc, heq, _⟩ | ⟨tc, heq, hst⟩
    · rw [hnil] at hmem; cases hmem
    · rw [heq] at hmem
      simp only [List.mem_singleton] at hmem
      rw [hmem]
    · exfalso
      refine hns ?_
      rw [hst]
      simp
  have hcw : cwInv s1 j := ⟨hc, hinv.canceled_lt j hc, htasks, hns, hacts⟩
  have hfin := cwInv_runSteps hcw h2
  refine ⟨hfin.2.2.2.1, hfin.2.2.2.2, ?_⟩
  rw [hfin.2.2.2.2]
  simp

/-- Witness for C2 on a concrete execution: job 0 is cancelled while
waiting and then scheduled; it never emits `Started` and never spawns a
child. -/
theorem c2_witness :
    TestStatus.started ∉ jobStatuses c2WitnessEnd.trace 0 ∧
      actsOf c2WitnessEnd.trace 0 = [] ∧
      JobAction.spawnChild ∉ actsOf c2WitnessEnd.trace 0 :=
  c2_canceled_never_starts emptyCache treeFn [fixtureTestByCommit]
    [.setRevs ["c1"], .setRevs []] [.cancelWaiting 0] c2WitnessMid
    c2WitnessEnd 0 rfl (by decide) (by decide) rfl

theorem zeroReturnIndex_observes_zero : ∀ (obs : List Nat) (i : Nat),
    JobCounter.zeroReturnIndex obs = some i → obs[i]? = some 0
  | [], i, h => by cases h
  | c :: rest, i, h => by
      unfold JobCounter.zeroReturnIndex at h
      by_cases hc : c = 0
      · rw [if_pos hc] at h
        injection h with h
        subst h
        simp [hc]
      · rw [if_neg hc] at h
        cases hr : JobCounter.zeroReturnIndex rest with
        | none => rw [hr] at h; cases h
        | some k =>
            rw [hr] at h
            simp only [Option.map_some', Option.some.injEq] at h
            subst h
            simpa using zeroReturnIndex_observes_zero rest k hr

theorem applyStep_none_of_no_tasks {cache : CacheFn} {repo : CommitTreeFn}
    {s : MState} {st : Step} (hnil : s.tasks = [])
    (hst : st.isSetRevs = false) : applyStep cache repo s st = none := by
  have htof : ∀ j, s.tasksOf j = [] := by
    intro j
    unfold MState.tasksOf
    rw [hnil]
    rfl
  cases st with
  | setRevs revs => cases hst
  | cancelWaiting j =>
      unfold applyStep
      dsimp only
      rw [htof j]
  | acquire j =>
      unfold applyStep
      dsimp only
      rw [htof j]
  | finish j cof fate =>
      unfold applyStep
      dsimp only
      rw [htof j]

/-- C7: when the job counter is zero, no supervisor task remains, and any
further scheduling without a `set_revisions` call leaves the state (in
particular the notification trace) unchanged — so after `set_revisions(∅)`
and a `settled()` return, no further notifications are sent.  Moreover the
modelled `JobCounter::zero` returns immediately (index 0) when the counter
is zero on entry, and whenever it returns, the counter was observed at
zero there. -/
theorem c7_settled_no_more_notifications (cache : CacheFn)
    (repo : CommitTreeFn) (tests : List Test) (steps : List Step) (s : MState)
    (h : runSteps cache repo (MState.init tests) steps = some s)
    (hz : s.counter = 0) :
    s.tasks = [] ∧
    (∀ steps2 s2, (∀ st ∈ steps2, st.isSetRevs = false) →
      runSteps cache repo s steps2 = some s2 → s2 = s) ∧
    (∀ obs : List Nat, JobCounter.zeroReturnIndex (0 :: obs) = some 0) ∧
    (∀ obs : List Nat, ∀ i, JobCounter.zeroReturnIndex obs = some i →
      obs[i]? = some 0) := by
  have hinv := inv_runSteps (inv_init tests) h
  have hnil : s.tasks = [] := by
    have := hinv.counter_eq
    rw [hz] at this
    exact (List.length_eq_zero.mp this.symm)
  refine ⟨hnil, ?_, ?_, ?_⟩
  · intro steps2 s2 hall h2
    cases steps2 with
    | nil =>
        unfold runSteps at h2
        injection h2 with h2
        exact h2.symm
    | cons st rest =>
        unfold runSteps at h2
        rw [applyStep_none_of_no_tasks hnil (hall st (by simp))] at h2
        cases h2
  · intro obs
    simp [JobCounter.zeroReturnIndex]
  · exact zeroReturnIndex_observes_zero

/-- Witness for C7 on a concrete settled execution. -/
theorem c7_witness :
    c7WitnessState.tasks = [] ∧
    JobCounter.zeroReturnIndex (0 :: [3, 0]) = some 0 := by
  have h := c7_settled_no_more_notifications emptyCache treeFn
    [fixtureTestByCommit]
    [.setRevs ["c1"], .acquire 0, .finish 0 none (.childDone (.exited 0)),
     .setRevs []] c7WitnessState rfl (by decide)
  exact ⟨h.1, h.2.2.1 [3, 0]⟩

/-!
## C6 — `set_result` is written exactly for clean exits
-/

theorem superviseAcquired_completed_iff (tc : TestCase) (cof : Option String)
    (fate : RunFate) (code : ExitCode) :
    (superviseAcquired tc cof fate).2.1 = .completed (TestResult.mk code) ↔
      (fate = .childDone (.exited code) ∧
        (tc.test.needsWorktree = true → cof = none)) := by
  unfold superviseAcquired TestJob.checkoutAndRun
  by_cases hw : tc.test.needsWorktree
  · simp only [if_pos hw, hw]
    cases cof with
    | some msg => cases fate <;> simp
    | none =>
        cases fate with
        | spawnFails m => simp [TestJob.run]
        | childDone o => cases o <;> simp [TestJob.run]
        | canceled cf =>
            rcases cf with ⟨si, cg, sk⟩
            cases si <;> cases cg <;> cases sk <;> simp [TestJob.run]
  · simp only [if_neg hw]
    have hw' : tc.test.needsWorktree = false := by
      cases hfw : tc.test.needsWorktree
      · rfl
      · exact absurd hfw hw
    simp only [hw']
    cases fate with
    | spawnFails m => simp [TestJob.run]
    | childDone o => cases o <;> simp [TestJob.run]
    | canceled cf =>
        rcases cf with ⟨si, cg, sk⟩
        cases si <;> cases cg <;> cases sk <;> simp [TestJob.run]

/-- C6: the results recorded in the database via `set_result` by a spawned
job are exactly the results of the `Completed` notifications it emitted
(so `set_result` is called iff the job completed, and jobs ending in
`Error` or `Cancelled` write nothing); `set_result` is recorded by the
supervisor iff its status is `Completed`; and the status is `Completed`
with a given exit code iff the child exited cleanly with that code (no
checkout failure, no spawn failure, no signal death, no cancellation). -/
theorem c6_set_result_iff_completed (cache : CacheFn) (repo : CommitTreeFn)
    (tests : List Test) (steps : List Step) (s : MState) (j : Nat)
    (h : runSteps cache repo (MState.init tests) steps = some s) :
    setResultsOf s.trace j =
      (jobStatuses s.trace j).filterMap (fun st => match st with
        | .completed r => some r
        | _ => none) ∧
    (∀ tc cof fate r, (superviseAcquired tc cof fate).2.2 = some r ↔
      (superviseAcquired tc cof fate).2.1 = .completed r) ∧
    (∀ tc cof fate code,
      (superviseAcquired tc cof fate).2.1 = .completed (TestResult.mk code) ↔
        (fate = .childDone (.exited code) ∧
          (tc.test.needsWorktree = true → cof = none))) :=
  ⟨(inv_runSteps (inv_init tests) h).set_results j,
    fun tc cof fate r => superviseAcquired_setResult_iff tc cof fate r,
    fun tc cof fate code => superviseAcquired_completed_iff tc cof fate code⟩

/-- Witness for C6 on a concrete execution with a clean exit code 7. -/
theorem c6_witness :
    setResultsOf c6WitnessState.trace 0 =
      (jobStatuses c6WitnessState.trace 0).filterMap (fun st => match st with
        | .completed r => some r
        | _ => none) ∧
    ((superviseAcquired fixtureCaseByCommit none
        (.childDone (.exited 7))).2.2 = some (TestResult.mk 7) ↔
      (superviseAcquired fixtureCaseByCommit none
        (.childDone (.exited 7))).2.1 = .completed (TestResult.mk 7)) := by
  have h := c6_set_result_iff_completed emptyCache treeFn
    [fixtureTestByCommit]
    [.setRevs ["c1"], .acquire 0, .finish 0 none (.childDone (.exited 7))]
    c6WitnessState 0 rfl
  exact ⟨h.1, h.2.1 fixtureCaseByCommit none (.childDone (.exited 7))
    (TestResult.mk 7)⟩

/-!
## C3 and C10 — behaviour of `set_revisions` for hits and misses
-/

theorem dedupKeepLast_subset {l : List (TestCaseId × TestCase)} :
    ∀ p ∈ dedupKeepLast l, p ∈ l := by
  induction l with
  | nil => intro p hp; cases hp
  | cons q rest ih =>
      intro p hp
      unfold dedupKeepLast at hp
      by_cases hmem : rest.any (fun q' => q'.1 = q.1)
      · rw [if_pos hmem] at hp
        exact List.mem_cons_of_mem q (ih p hp)
      · rw [if_neg hmem] at hp
        rcases List.mem_cons.mp hp with rfl | hp
        · exact List.mem_cons_self _ _
        · exact List.mem_cons_of_mem q (ih p hp)

theorem dedupKeepLast_nodup (l : List (TestCaseId × TestCase)) :
    ((dedupKeepLast l).map (fun p => p.1)).Nodup := by
  induction l with
  | nil => simp [dedupKeepLast]
  | cons q rest ih =>
      unfold dedupKeepLast
      by_cases hmem : rest.any (fun q' => q'.1 = q.1)
      · rw [if_pos hmem]
        exact ih
      · rw [if_neg hmem]
        simp only [List.map_cons, List.nodup_cons]
        refine ⟨?_, ih⟩
        intro hq
        rcases List.mem_map.mp hq with ⟨p, hp, hpe⟩
        have hp' := dedupKeepLast_subset p hp
        exact hmem (List.any_eq_true.mpr ⟨p, hp', by simp [hpe]⟩)

theorem desiredCases_key (tcs : List TestCase) :
    ∀ p ∈ desiredCases tcs, p.1 = p.2.caseId := by
  intro p hp
  have hp' := dedupKeepLast_subset p hp
  rcases List.mem_map.mp hp' with ⟨tc, _, rfl⟩
  rfl

theorem toStartOf_subset (s : MState) (d : List (TestCaseId × TestCase)) :
    ∀ p ∈ toStartOf s d, p ∈ d := by
  intro p hp
  exact (List.mem_filter.mp hp).1

theorem toStart_vals_ids_nodup (s : MState) (tcs : List TestCase) :
    (((toStartOf s (desiredCases tcs)).map (fun p => p.2)).map
      TestCase.caseId).Nodup := by
  have h1 : ((toStartOf s (desiredCases tcs)).map (fun p => p.2)).map
      TestCase.caseId = (toStartOf s (desiredCases tcs)).map (fun p => p.1) := by
    rw [List.map_map]
    refine List.map_congr_left ?_
    intro p hp
    have := desiredCases_key tcs p (toStartOf_subset s _ p hp)
    simp [Function.comp, this.symm]
  rw [h1]
  have hsub : List.Sublist (toStartOf s (desiredCases tcs))
      (desiredCases tcs) := List.filter_sublist _
  exact List.Nodup.sublist (hsub.map (fun p => p.1))
    (dedupKeepLast_nodup (tcs.map (fun tc => (tc.caseId, tc))))

theorem applySetRevs_trace (cache : CacheFn) (s : MState) (tcs : List TestCase) :
    (applySetRevs cache s tcs).trace =
      s.trace ++ startEvents cache s.nextJobId
        ((toStartOf s (desiredCases tcs)).map (fun p => p.2)) := by
  unfold applySetRevs
  rw [startList_trace, cancelPhase_trace, cancelPhase_nextJobId]

theorem applySetRevs_jobCts (cache : CacheFn) (s : MState) (tcs : List TestCase) :
    (applySetRevs cache s tcs).jobCts =
      (s.jobCts.filter (fun p => (desiredCases tcs).any (fun q => q.1 = p.1))) ++
        startCts cache s.nextJobId
          ((toStartOf s (desiredCases tcs)).map (fun p => p.2)) := by
  unfold applySetRevs
  rw [startList_jobCts, cancelPhase_jobCts, cancelPhase_nextJobId]

theorem applySetRevs_tasks (cache : CacheFn) (s : MState) (tcs : List TestCase) :
    (applySetRevs cache s tcs).tasks =
      s.tasks ++ startTasks cache s.nextJobId
        ((toStartOf s (desiredCases tcs)).map (fun p => p.2)) := by
  unfold applySetRevs
  rw [startList_tasks, cancelPhase_tasks, cancelPhase_nextJobId]

theorem tcStatuses_startEvents_absent (cache : CacheFn) {id : TestCaseId}
    (l : List TestCase) (n : Nat) (habs : ∀ tc ∈ l, ¬ tc.caseId = id) :
    tcStatuses (startEvents cache n l) id = [] := by
  induction l generalizing n with
  | nil => rfl
  | cons tc rest ih =>
      have hne := habs tc (by simp)
      have hrest : ∀ tc' ∈ rest, ¬ tc'.caseId = id :=
        fun tc' h' => habs tc' (by simp [h'])
      unfold startEvents
      cases hcl : Manager.cacheLookup cache tc with
      | some r => simp [tcStatuses_cons, hne, ih _ hrest]
      | none => simp [tcStatuses_cons, hne, ih _ hrest]

theorem startCts_absent (cache : CacheFn) {id : TestCaseId}
    (l : List TestCase) (n : Nat) (habs : ∀ tc ∈ l, ¬ tc.caseId = id) :
    (startCts cache n l).filter (fun p => p.1 = id) = [] := by
  induction l generalizing n with
  | nil => rfl
  | cons tc rest ih =>
      have hne := habs tc (by simp)
      have hrest : ∀ tc' ∈ rest, ¬ tc'.caseId = id :=
        fun tc' h' => habs tc' (by simp [h'])
      unfold startCts
      cases hcl : Manager.cacheLookup cache tc with
      | some r => simp [ih _ hrest]
      | none => simp [List.filter_cons, hne, ih _ hrest]

theorem startTasks_absent (cache : CacheFn) {id : TestCaseId}
    (l : List TestCase) (n : Nat) (habs : ∀ tc ∈ l, ¬ tc.caseId = id) :
    (startTasks cache n l).filter (fun t => t.tc.caseId = id) = [] := by
  induction l generalizing n with
  | nil => rfl
  | cons tc rest ih =>
      have hne := habs tc (by simp)
      have hrest : ∀ tc' ∈ rest, ¬ tc'.caseId = id :=
        fun tc' h' => habs tc' (by simp [h'])
      unfold startTasks
      cases hcl : Manager.cacheLookup cache tc with
      | some r => simp [ih _ hrest]
      | none => simp [List.filter_cons, hne, ih _ hrest]

theorem tcStatuses_startEvents_hit (cache : CacheFn) {tc : TestCase}
    {r : TestResult} (l : List TestCase) (n : Nat)
    (hnd : (l.map TestCase.caseId).Nodup) (hmem : tc ∈ l)
    (hhit : Manager.cacheLookup cache tc = some r) :
    tcStatuses (startEvents cache n l) tc.caseId = [.completed r] := by
  induction l generalizing n with
  | nil => cases hmem
  | cons h0 rest ih =>
      simp only [List.map_cons, List.nodup_cons] at hnd
      rcases List.mem_cons.mp hmem with rfl | hmem
      · have habs : ∀ tc' ∈ rest, ¬ tc'.caseId = tc.caseId := by
          intro tc' h' he
          exact hnd.1 (he ▸ List.mem_map_of_mem TestCase.caseId h')
        unfold startEvents
        rw [hhit]
        simp [tcStatuses_cons,
          tcStatuses_startEvents_absent cache rest _ habs]
      · have hne : ¬ h0.caseId = tc.caseId := by
          intro he
          exact hnd.1 (he ▸ List.mem_map_of_mem TestCase.caseId hmem)
        unfold startEvents
        cases hcl : Manager.cacheLookup cache h0 with
        | some r0 => simp [tcStatuses_cons, hne, ih _ hnd.2 hmem]
        | none => simp [tcStatuses_cons, hne, ih _ hnd.2 hmem]

theorem startCts_hit (cache : CacheFn) {tc : TestCase} {r : TestResult}
    (l : List TestCase) (n : Nat)
    (hnd : (l.map TestCase.caseId).Nodup) (hmem : tc ∈ l)
    (hhit : Manager.cacheLookup cache tc = some r) :
    (startCts cache n l).filter (fun p => p.1 = tc.caseId) = [] := by
  induction l generalizing n with
  | nil => rfl
  | cons h0 rest ih =>
      simp only [List.map_cons, List.nodup_cons] at hnd
      rcases List.mem_cons.mp hmem with rfl | hmem
      · have habs : ∀ tc' ∈ rest, ¬ tc'.caseId = tc.caseId := by
          intro tc' h' he
          exact hnd.1 (he ▸ List.mem_map_of_mem TestCase.caseId h')
        unfold startCts
        rw [hhit]
        exact startCts_absent cache rest n habs
      · have hne : ¬ h0.caseId = tc.caseId := by
          intro he
          exact hnd.1 (he ▸ List.mem_map_of_mem TestCase.caseId hmem)
        unfold startCts
        cases hcl : Manager.cacheLookup cache h0 with
        | some r0 => exact ih _ hnd.2 hmem
        | none => simp [List.filter_cons, hne, ih _ hnd.2 hmem]

theorem startTasks_hit (cache : CacheFn) {tc : TestCase} {r : TestResult}
    (l : List TestCase) (n : Nat)
    (hnd : (l.map TestCase.caseId).Nodup) (hmem : tc ∈ l)
    (hhit : Manager.cacheLookup cache tc = some r) :
    (startTasks cache n l).filter (fun t => t.tc.caseId = tc.caseId) = [] := by
  induction l generalizing n with
  | nil => rfl
  | cons h0 rest ih =>
      simp only [List.map_cons, List.nodup_cons] at hnd
      rcases List.mem_cons.mp hmem with rfl | hmem
      · have habs : ∀ tc' ∈ rest, ¬ tc'.caseId = tc.caseId := by
          intro tc' h' he
          exact hnd.1 (he ▸ List.mem_map_of_mem TestCase.caseId h')
        unfold startTasks
        rw [hhit]
        exact startTasks_absent cache rest n habs
      · have hne : ¬ h0.caseId = tc.caseId := by
          intro he
          exact hnd.1 (he ▸ List.mem_map_of_mem TestCase.caseId hmem)
        unfold startTasks
        cases hcl : Manager.cacheLookup cache h0 with
        | some r0 => exact ih _ hnd.2 hmem
        | none => simp [List.filter_cons, hne, ih _ hnd.2 hmem]

/-- C3: for every test case whose cache lookup hits during
`set_revisions`, the notifications emitted by this call for that identity
are exactly one `Completed` with the cached result (no `Enqueued`, no
`Started`); the final cancellation map has no entry for it; and no
supervisor task is spawned for it by this call. -/
theorem c3_cache_hit_only_completed (cache : CacheFn) (repo : CommitTreeFn)
    (revs : List CommitHash) (s s' : MState) (tcs : List TestCase)
    (tc : TestCase) (r : TestResult)
    (h : s.setRevisions cache repo revs = .ok s')
    (hb : buildTestCases repo s.tests revs = .ok tcs)
    (hmem : tc ∈ (toStartOf s (desiredCases tcs)).map (fun p => p.2))
    (hhit : Manager.cacheLookup cache tc = some r) :
    tcStatuses (s'.trace.drop s.trace.length) tc.caseId = [.completed r] ∧
    s'.jobCts.filter (fun p => p.1 = tc.caseId) = [] ∧
    (s'.tasks.drop s.tasks.length).filter
      (fun t => t.tc.caseId = tc.caseId) = [] := by
  rcases setRevisions_ok h with ⟨tcs2, hb2, rfl⟩
  rw [hb] at hb2
  injection hb2 with hb2
  subst hb2
  have hnd := toStart_vals_ids_nodup s tcs
  rcases List.mem_map.mp hmem with ⟨p0, hp0, hpe⟩
  have hkey : p0.1 = p0.2.caseId :=
    desiredCases_key tcs p0 (toStartOf_subset s _ p0 hp0)
  have hnotin : ∀ q ∈ s.jobCts, ¬ q.1 = tc.caseId := by
    have hfil := (List.mem_filter.mp hp0).2
    simp only [decide_eq_true_eq] at hfil
    intro q hq he
    refine hfil ?_
    exact List.any_eq_true.mpr ⟨q, hq, by simp [he, hkey, hpe]⟩
  refine ⟨?_, ?_, ?_⟩
  · rw [applySetRevs_trace, List.drop_left]
    exact tcStatuses_startEvents_hit cache _ _ hnd hmem hhit
  · rw [applySetRevs_jobCts, List.filter_append]
    rw [startCts_hit cache _ _ hnd hmem hhit]
    rw [List.append_nil]
    refine List.filter_eq_nil_iff.mpr ?_
    intro q hq
    have hq' := (List.mem_filter.mp hq).1
    simpa using hnotin q hq'
  · have htl : (applySetRevs cache s tcs).tasks.drop s.tasks.length =
        startTasks cache s.nextJobId
          ((toStartOf s (desiredCases tcs)).map (fun p => p.2)) := by
      rw [applySetRevs_tasks, List.drop_left]
    rw [htl]
    exact startTasks_hit cache _ _ hnd hmem hhit

/-- Witness for C3 on a concrete cache-hit `set_revisions` call. -/
theorem c3_witness :
    tcStatuses (c3WitnessEnd.trace.drop c3WitnessStart.trace.length)
      fixtureCaseByCommit.caseId = [.completed (TestResult.mk 0)] ∧
    c3WitnessEnd.jobCts.filter
      (fun p => p.1 = fixtureCaseByCommit.caseId) = [] ∧
    (c3WitnessEnd.tasks.drop c3WitnessStart.tasks.length).filter
      (fun t => t.tc.caseId = fixtureCaseByCommit.caseId) = [] :=
  c3_cache_hit_only_completed fullCache treeFn ["c1"] c3WitnessStart
    c3WitnessEnd c3WitnessTcs fixtureCaseByCommit (TestResult.mk 0) rfl rfl
    (by decide) rfl

theorem startEvents_miss_createOutput (cache : CacheFn) {tc : TestCase}
    (l : List TestCase) (n : Nat) (hmem : tc ∈ l)
    (hmiss : Manager.cacheLookup cache tc = none) :
    ∃ jobId k,
      (startEvents cache n l)[k]? =
        some (.createOutput jobId tc.storage_hash tc.test.name
          tc.test.configHash) ∧
      (startEvents cache n l)[k + 1]? =
        some (.notif (some jobId) tc .enqueued) := by
  induction l generalizing n with
  | nil => cases hmem
  | cons h0 rest ih =>
      rcases List.mem_cons.mp hmem with rfl | hmem
      · refine ⟨n, 0, ?_, ?_⟩ <;>
          (unfold startEvents; rw [hmiss]; simp)
      · unfold startEvents
        cases hcl : Manager.cacheLookup cache h0 with
        | some r0 =>
            rcases ih n hmem with ⟨j0, k, h1, h2⟩
            exact ⟨j0, k + 1, by simpa using h1, by simpa using h2⟩
        | none =>
            rcases ih (n + 1) hmem with ⟨j0, k, h1, h2⟩
            exact ⟨j0, k + 2, by simpa using h1, by simpa using h2⟩

/-- C10: for every cache miss in `set_revisions` — including test cases
whose cache policy is `none` — the manager creates the output entry in the
result database, keyed by the storage hash, immediately before emitting
that job's `Enqueued` (hence before spawning it); and the storage hash is
the cache hash when present and the commit hash otherwise. -/
theorem c10_create_output_before_spawn (cache : CacheFn) (repo : CommitTreeFn)
    (revs : List CommitHash) (s s' : MState) (tcs : List TestCase)
    (tc : TestCase)
    (h : s.setRevisions cache repo revs = .ok s')
    (hb : buildTestCases repo s.tests revs = .ok tcs)
    (hmem : tc ∈ (toStartOf s (desiredCases tcs)).map (fun p => p.2))
    (hmiss : Manager.cacheLookup cache tc = none) :
    (∃ jobId k,
      (s'.trace.drop s.trace.length)[k]? =
        some (.createOutput jobId tc.storage_hash tc.test.name
          tc.test.configHash) ∧
      (s'.trace.drop s.trace.length)[k + 1]? =
        some (.notif (some jobId) tc .enqueued)) ∧
    (tc.cache_hash = none → tc.storage_hash = tc.commit_hash) ∧
    (∀ hsh, tc.cache_hash = some hsh → tc.storage_hash = hsh) := by
  rcases setRevisions_ok h with ⟨tcs2, hb2, rfl⟩
  rw [hb] at hb2
  injection hb2 with hb2
  subst hb2
  refine ⟨?_, ?_, ?_⟩
  · rw [applySetRevs_trace, List.drop_left]
    exact startEvents_miss_createOutput cache _ _ hmem hmiss
  · intro hnone
    unfold TestCase.storage_hash
    rw [hnone]
    rfl
  · intro hsh hsome
    unfold TestCase.storage_hash
    rw [hsome]
    rfl

/-- Witness for C10 at a concrete cache-policy-`none` miss. -/
theorem c10_witness :
    (∃ jobId k,
      (c10WitnessEnd.trace.drop c10WitnessStart.trace.length)[k]? =
        some (.createOutput jobId fixtureCaseNoCache.storage_hash
          fixtureCaseNoCache.test.name fixtureCaseNoCache.test.configHash) ∧
      (c10WitnessEnd.trace.drop c10WitnessStart.trace.length)[k + 1]? =
        some (.notif (some jobId) fixtureCaseNoCache .enqueued)) ∧
    (fixtureCaseNoCache.cache_hash = none →
      fixtureCaseNoCache.storage_hash = fixtureCaseNoCache.commit_hash) ∧
    (∀ hsh, fixtureCaseNoCache.cache_hash = some hsh →
      fixtureCaseNoCache.storage_hash = hsh) :=
  c10_create_output_before_spawn emptyCache treeFn ["c1"] c10WitnessStart
    c10WitnessEnd c10WitnessTcs fixtureCaseNoCache rfl rfl (by decide) rfl

theorem countEnq_append (tr tr' : List Event) (id : TestCaseId) :
    countEnqueuedFor (tr ++ tr') id =
      countEnqueuedFor tr id + countEnqueuedFor tr' id := by
  simp [countEnqueuedFor, List.filter_append]

theorem isEnqueuedFor_terminal (id : TestCaseId) (src : Option Nat)
    (tc : TestCase) {st : TestStatus} (h : st.isTerminal = true) :
    isEnqueuedFor id (.notif src tc st) = false := by
  cases st <;> simp [isEnqueuedFor, TestStatus.isTerminal] at h ⊢

theorem countEnq_actMap (acts : List JobAction) (j : Nat) (id : TestCaseId) :
    countEnqueuedFor (acts.map (Event.act j)) id = 0 := by
  induction acts with
  | nil => rfl
  | cons a rest ih => simp [countEnqueuedFor, isEnqueuedFor] at ih ⊢

theorem countEnq_setResEvents (j : Nat) (o : Option TestResult)
    (id : TestCaseId) : countEnqueuedFor (setResEvents j o) id = 0 := by
  cases o <;> simp [setResEvents, countEnqueuedFor, isEnqueuedFor]

theorem applyStep_taskStep_fields {cache : CacheFn} {repo : CommitTreeFn}
    {s s' : MState} {st : Step} (hst : st.isSetRevs = false)
    (hs : applyStep cache repo s st = some s') :
    s'.jobCts = s.jobCts ∧ s'.tests = s.tests ∧
    (∀ id, countEnqueuedFor s'.trace id = countEnqueuedFor s.trace id) := by
  cases st with
  | setRevs revs => cases hst
  | cancelWaiting j =>
      unfold applyStep at hs
      dsimp only at hs
      cases ht : s.tasksOf j with
      | nil => rw [ht] at hs; simp at hs
      | cons t rest =>
          cases rest with
          | cons t2 r2 => rw [ht] at hs; simp at hs
          | nil =>
              rw [ht] at hs
              dsimp only at hs
              by_cases hc : t.phase = .waiting ∧ j ∈ s.canceledTokens
              · rw [if_pos hc] at hs
                injection hs with hs
                subst hs
                exact ⟨rfl, rfl, fun id => rfl⟩
              · rw [if_neg hc] at hs; cases hs
  | acquire j =>
      unfold applyStep at hs
      dsimp only at hs
      cases ht : s.tasksOf j with
      | nil => rw [ht] at hs; simp at hs
      | cons t rest =>
          cases rest with
          | cons t2 r2 => rw [ht] at hs; simp at hs
          | nil =>
              rw [ht] at hs
              dsimp only at hs
              by_cases hc : t.phase = .waiting ∧ j ∉ s.canceledTokens
              · rw [if_pos hc] at hs
                injection hs with hs
                subst hs
                refine ⟨rfl, rfl, fun id => ?_⟩
                rw [countEnq_append]
                simp [countEnqueuedFor, isEnqueuedFor]
              · rw [if_neg hc] at hs; cases hs
  | finish j cof fate =>
      unfold applyStep at hs
      dsimp only at hs
      cases ht : s.tasksOf j with
      | nil => rw [ht] at hs; simp at hs
      | cons t rest =>
          cases rest with
          | cons t2 r2 => rw [ht] at hs; simp at hs
          | nil =>
              rw [ht] at hs
              dsimp only at hs
              by_cases hc : t.phase = .running
              · rw [if_pos hc] at hs
                injection hs with hs
                subst hs
                refine ⟨rfl, rfl, fun id => ?_⟩
                rw [countEnq_append, countEnq_append, countEnq_append,
                  countEnq_actMap, countEnq_setResEvents]
                have hterm := superviseAcquired_isTerminal t.tc cof fate
                simp [countEnqueuedFor,
                  isEnqueuedFor_terminal id (some j) t.tc hterm]
              · rw [if_neg hc] at hs; cases hs

theorem runSteps_taskSteps_fields {cache : CacheFn} {repo : CommitTreeFn}
    {s s' : MState} {steps : List Step}
    (hsteps : ∀ st ∈ steps, st.isSetRevs = false)
    (hs : runSteps cache repo s steps = some s') :
    s'.jobCts = s.jobCts ∧ s'.tests = s.tests ∧
    (∀ id, countEnqueuedFor s'.trace id = countEnqueuedFor s.trace id) := by
  induction steps generalizing s with
  | nil =>
      unfold runSteps at hs
      injection hs with hs
      subst hs
      exact ⟨rfl, rfl, fun id => rfl⟩
  | cons st rest ih =>
      unfold runSteps at hs
      cases ha : applyStep cache repo s st with
      | none => rw [ha] at hs; cases hs
      | some s2 =>
          rw [ha] at hs
          have h1 := applyStep_taskStep_fields (hsteps st (by simp)) ha
          have h2 := ih (fun st' h' => hsteps st' (by simp [h'])) hs
          exact ⟨h2.1.trans h1.1, h2.2.1.trans h1.2.1,
            fun id => (h2.2.2 id).trans (h1.2.2 id)⟩

theorem countEnq_startEvents_absent (cache : CacheFn) {id : TestCaseId}
    (l : List TestCase) (n : Nat) (habs : ∀ tc ∈ l, ¬ tc.caseId = id) :
    countEnqueuedFor (startEvents cache n l) id = 0 := by
  induction l generalizing n with
  | nil => rfl
  | cons tc rest ih =>
      have hne := habs tc (by simp)
      have hrest : ∀ tc' ∈ rest, ¬ tc'.caseId = id :=
        fun tc' h' => habs tc' (by simp [h'])
      unfold startEvents
      cases hcl : Manager.cacheLookup cache tc with
      | some r => simp [countEnqueuedFor, isEnqueuedFor] at ih ⊢; exact ih _ hrest
      | none =>
          simp only [countEnqueuedFor, List.filter_cons] at ih ⊢
          simp [isEnqueuedFor, hne, ih _ hrest]

theorem countEnq_startEvents_le_one (cache : CacheFn) (id : TestCaseId)
    (l : List TestCase) (n : Nat) (hnd : (l.map TestCase.caseId).Nodup) :
    countEnqueuedFor (startEvents cache n l) id ≤ 1 := by
  induction l generalizing n with
  | nil => exact Nat.zero_le 1
  | cons tc rest ih =>
      simp only [List.map_cons, List.nodup_cons] at hnd
      unfold startEvents
      cases hcl : Manager.cacheLookup cache tc with
      | some r =>
          have := ih n hnd.2
          simp only [countEnqueuedFor, List.filter_cons] at this ⊢
          simpa [isEnqueuedFor] using this
      | none =>
          by_cases hid : tc.caseId = id
          · have habs : ∀ tc' ∈ rest, ¬ tc'.caseId = id := by
              intro tc' h' he
              refine hnd.1 ?_
              rw [hid, ← he]
              exact List.mem_map_of_mem TestCase.caseId h'
            have h0 := countEnq_startEvents_absent cache rest (n + 1) habs
            simp only [countEnqueuedFor, List.filter_cons] at h0 ⊢
            simp [isEnqueuedFor, hid, h0]
          · have := ih (n + 1) hnd.2
            simp only [countEnqueuedFor, List.filter_cons] at this ⊢
            simpa [isEnqueuedFor, hid] using this

theorem countEnq_pos_mem_startCts (cache : CacheFn) {id : TestCaseId}
    (l : List TestCase) (n : Nat)
    (hpos : 0 < countEnqueuedFor (startEvents cache n l) id) :
    ∃ j, ∃ p ∈ startCts cache n l, p = (id, j) := by
  induction l generalizing n with
  | nil => cases hpos
  | cons tc rest ih =>
      unfold startEvents at hpos
      unfold startCts
      cases hcl : Manager.cacheLookup cache tc with
      | some r =>
          rw [hcl] at hpos
          simp only [countEnqueuedFor, List.filter_cons, isEnqueuedFor] at hpos
          rcases ih n (by simpa [countEnqueuedFor] using hpos) with ⟨j, p, hp, he⟩
          exact ⟨j, p, hp, he⟩
      | none =>
          rw [hcl] at hpos
          by_cases hid : tc.caseId = id
          · exact ⟨n, (tc.caseId, n), by simp, by simp [hid]⟩
          · simp only [countEnqueuedFor, List.filter_cons, isEnqueuedFor,
              hid] at hpos
            simp only [decide_eq_true_eq, if_neg hid] at hpos
            rcases ih (n + 1) (by simpa [countEnqueuedFor, isEnqueuedFor] using hpos)
              with ⟨j, p, hp, he⟩
            exact ⟨j, p, by simp [hp], he⟩

theorem startCts_keys (cache : CacheFn) (l : List TestCase) (n : Nat) :
    ∀ p ∈ startCts cache n l, ∃ tc ∈ l, p.1 = tc.caseId := by
  induction l generalizing n with
  | nil => intro p hp; cases hp
  | cons tc rest ih =>
      intro p hp
      unfold startCts at hp
      cases hcl : Manager.cacheLookup cache tc with
      | some r =>
          rw [hcl] at hp
          rcases ih n p hp with ⟨tc', h', he⟩
          exact ⟨tc', by simp [h'], he⟩
      | none =>
          rw [hcl] at hp
          rcases List.mem_cons.mp hp with rfl | hp
          · exact ⟨tc, by simp, rfl⟩
          · rcases ih (n + 1) p hp with ⟨tc', h', he⟩
            exact ⟨tc', by simp [h'], he⟩

theorem applySetRevs_tests (cache : CacheFn) (s : MState) (tcs : List TestCase) :
    (applySetRevs cache s tcs).tests = s.tests := by
  unfold applySetRevs
  rw [startList_tests, cancelPhase_tests]

/-- C9: (i) scheduling supervisor tasks — including a job reaching its
terminal state — never changes the cancellation map `job_cts`; (ii) a
`set_revisions` call keeps every existing entry whose identity is still
desired and removes (only) the identities not desired; (iii) consequently
two `set_revisions` calls with the same revision set, with only task
scheduling in between, emit at most one `Enqueued` per (commit, test)
identity in total — each job is spawned at most once, even for tests whose
cache policy is `none`. -/
theorem c9_job_cts_persistence (cache : CacheFn) (repo : CommitTreeFn)
    (revs : List CommitHash) (s0 s1 s2 s3 : MState) (tcs : List TestCase)
    (steps : List Step)
    (h1 : s0.setRevisions cache repo revs = .ok s1)
    (hb : buildTestCases repo s0.tests revs = .ok tcs)
    (hsteps : ∀ st ∈ steps, st.isSetRevs = false)
    (h2 : runSteps cache repo s1 steps = some s2)
    (h3 : s2.setRevisions cache repo revs = .ok s3) :
    s2.jobCts = s1.jobCts ∧
    (∀ p ∈ s0.jobCts,
      ((desiredCases tcs).any (fun q => q.1 = p.1) = true → p ∈ s1.jobCts) ∧
      ((desiredCases tcs).any (fun q => q.1 = p.1) = false →
        ∀ j', (p.1, j') ∉ s1.jobCts)) ∧
    (∀ id, countEnqueuedFor s3.trace id ≤ countEnqueuedFor s0.trace id + 1) := by
  have hfields := runSteps_taskSteps_fields hsteps h2
  rcases setRevisions_ok h1 with ⟨tcs1, hb1, he1⟩
  rw [hb] at hb1
  injection hb1 with hb1
  subst hb1
  rcases setRevisions_ok h3 with ⟨tcs3, hb3, he3⟩
  have htests2 : s2.tests = s0.tests := by
    rw [hfields.2.1, he1, applySetRevs_tests]
  rw [htests2, hb] at hb3
  injection hb3 with hb3
  subst hb3
  refine ⟨hfields.1, ?_, ?_⟩
  · intro p hp
    constructor
    · intro hdes
      rw [he1, applySetRevs_jobCts]
      refine List.mem_append.mpr (Or.inl ?_)
      exact List.mem_filter.mpr ⟨hp, by simp [hdes]⟩
    · intro hdes j' hmem
      rw [he1, applySetRevs_jobCts] at hmem
      rcases List.mem_append.mp hmem with hmem | hmem
      · have := (List.mem_filter.mp hmem).2
        simp only [decide_eq_true_eq] at this
        rw [hdes] at this
        cases this
      · rcases startCts_keys cache _ _ _ hmem with ⟨tc', htc', hkey⟩
        rcases List.mem_map.mp htc' with ⟨q, hq, rfl⟩
        have hq1 : q.1 = q.2.caseId :=
          desiredCases_key tcs q (toStartOf_subset s0 _ q hq)
        have hfil := (List.mem_filter.mp hq).2
        simp only [decide_eq_true_eq] at hfil
        refine hfil ?_
        refine List.any_eq_true.mpr ⟨p, hp, ?_⟩
        simp only [decide_eq_true_eq]
        rw [hq1, ← hkey]
  · intro id
    have hc1 : countEnqueuedFor s1.trace id = countEnqueuedFor s0.trace id +
        countEnqueuedFor (startEvents cache s0.nextJobId
          ((toStartOf s0 (desiredCases tcs)).map (fun p => p.2))) id := by
      rw [he1, applySetRevs_trace, countEnq_append]
    have hc2 : countEnqueuedFor s2.trace id = countEnqueuedFor s1.trace id :=
      hfields.2.2 id
    have hc3 : countEnqueuedFor s3.trace id = countEnqueuedFor s2.trace id +
        countEnqueuedFor (startEvents cache s2.nextJobId
          ((toStartOf s2 (desiredCases tcs)).map (fun p => p.2))) id := by
      rw [he3, applySetRevs_trace, countEnq_append]
    have hle1 : countEnqueuedFor (startEvents cache s0.nextJobId
        ((toStartOf s0 (desiredCases tcs)).map (fun p => p.2))) id ≤ 1 :=
      countEnq_startEvents_le_one cache id _ _ (toStart_vals_ids_nodup s0 tcs)
    have hle3 : countEnqueuedFor (startEvents cache s2.nextJobId
        ((toStartOf s2 (desiredCases tcs)).map (fun p => p.2))) id ≤ 1 :=
      countEnq_startEvents_le_one cache id _ _ (toStart_vals_ids_nodup s2 tcs)
    by_cases hpos : 0 < countEnqueuedFor (startEvents cache s0.nextJobId
        ((toStartOf s0 (desiredCases tcs)).map (fun p => p.2))) id
    · rcases countEnq_pos_mem_startCts cache _ _ hpos with ⟨j, p, hpmem, rfl⟩
      have hin1 : (id, j) ∈ s1.jobCts := by
        rw [he1, applySetRevs_jobCts]
        exact List.mem_append.mpr (Or.inr hpmem)
      have hin2 : (id, j) ∈ s2.jobCts := by
        rw [hfields.1]
        exact hin1
      have habs : ∀ tc' ∈ (toStartOf s2 (desiredCases tcs)).map
          (fun p => p.2), ¬ tc'.caseId = id := by
        intro tc' htc' he
        rcases List.mem_map.mp htc' with ⟨q, hq, rfl⟩
        have hq1 : q.1 = q.2.caseId :=
          desiredCases_key tcs q (toStartOf_subset s2 _ q hq)
        have hfil := (List.mem_filter.mp hq).2
        simp only [decide_eq_true_eq] at hfil
        refine hfil ?_
        refine List.any_eq_true.mpr ⟨(id, j), hin2, ?_⟩
        simp only [decide_eq_true_eq]
        rw [hq1, he]
      have h0 := countEnq_startEvents_absent cache _ s2.nextJobId habs
      omega
    · omega

/-- Witness for C9 on a concrete pair of identical `set_revisions` calls
around a completed `NoCaching` job. -/
theorem c9_witness :
    c9WitnessS2.jobCts = c9WitnessS1.jobCts ∧
    countEnqueuedFor c9WitnessS3.trace "c1:test_0" ≤
      countEnqueuedFor (MState.init [fixtureTestNoCache]).trace "c1:test_0"
        + 1 := by
  have h := c9_job_cts_persistence emptyCache treeFn ["c1"]
    (MState.init [fixtureTestNoCache]) c9WitnessS1 c9WitnessS2 c9WitnessS3
    c9WitnessTcs [.acquire 0, .finish 0 none (.childDone (.exited 0))]
    rfl rfl (by decide) rfl rfl
  exact ⟨h.1, h.2.2 "c1:test_0"⟩
